import Mathlib

/-!
Verification of the indexed record store of the Full-Stack Employee Management
System (`src/utils/employeeStore.js` and `src/utils/userStore.js`).

The JavaScript store keeps an in-memory array of records together with `Map`
indexes from normalized keys to array positions.  We embed it shallowly:

* a JS record object becomes a Lean structure of its scalar fields;
* a JS `Map` whose values are array positions becomes a function
  `κ → Option Nat` (`Map.set` / `Map.delete` / `Map.get` become `mset`,
  `mdel`, application);
* a method that mutates `this` becomes a function from the store state to
  (result × new state); a `throw` is an `Except.error` result paired with the
  state as of the throw site (in both stores every `throw` happens before the
  first mutation of the method, so that state is the input state);
* ids are `Nat` (the JS code normalizes incoming ids with `Number(...)`,
  which the embedding elides by typing ids as `Nat` throughout);
* the debounced `_persist` writes `JSON.stringify(this.employees)`; flat
  records of strings and integers survive the JSON round trip, so the durable
  file is modelled by the record list it encodes.
-/
/-- `.toLowerCase()` as the JS code applies it to email / username keys
(basic-latin lowering, matching `Char.toLower`; implemented directly on the
character list so that the kernel can evaluate it on literals). -/
def toLowerCase (s : String) : String :=
  ⟨s.data.map Char.toLower⟩

/-- `Map.set` on a position index: later sets overwrite earlier ones. -/
def mset {κ : Type} [DecidableEq κ] (m : κ → Option Nat) (k : κ) (v : Nat) :
    κ → Option Nat :=
  fun q => if q = k then some v else m q

/-- `Map.delete` on a position index. -/
def mdel {κ : Type} [DecidableEq κ] (m : κ → Option Nat) (k : κ) :
    κ → Option Nat :=
  fun q => if q = k then none else m q

/-- One employee record (`id` plus the seven scalar fields of the JS object). -/
structure Employee where
  id : Nat
  name : String
  designation : String
  email : String
  contact : String
  department : String
  joiningDate : String
  location : String
deriving DecidableEq, Repr

/-- The payload accepted by `EmployeeStore.add` (all seven fields; any `id`
supplied by the client is ignored by the source, so it has no `id` field). -/
structure EmployeeData where
  name : String
  designation : String
  email : String
  contact : String
  department : String
  joiningDate : String
  location : String
deriving DecidableEq, Repr

/-- The payload accepted by `EmployeeStore.update`; a missing field of the JS
object (`undefined`, also `null`, which `??` treats alike) is `none`. -/
structure UpdateData where
  name : Option String := none
  designation : Option String := none
  email : Option String := none
  contact : Option String := none
  department : Option String := none
  joiningDate : Option String := none
  location : Option String := none
deriving DecidableEq, Repr

/-- The store raises `Error('Email already exists')` /
`Error('Username already exists')`; the spec calls this `DuplicateKeyError`. -/
inductive StoreError where
  | duplicateKey
deriving DecidableEq, Repr

/-- The mutable fields of the `EmployeeStore` class. -/
structure EmployeeStore where
  employees : List Employee
  indexById : Nat → Option Nat
  indexByEmail : String → Option Nat
  maxId : Nat

namespace EmployeeStore

/-- The constructor state, which is also the state `init()` establishes when
the durable file is absent (empty collection, empty indexes, `maxId = 0`). -/
def emptyStore : EmployeeStore :=
  { employees := [], indexById := fun _ => none, indexByEmail := fun _ => none, maxId := 0 }

/-- The `for (let i = 0; ...)` loop body of `_buildIndexes`, processing the
remaining employees starting at array position `i`. -/
def buildLoop : EmployeeStore → Nat → List Employee → EmployeeStore
  | acc, _, [] => acc
  | acc, i, emp :: rest =>
      buildLoop
        { acc with
          indexById := mset acc.indexById emp.id i,
          indexByEmail := mset acc.indexByEmail (toLowerCase emp.email) i,
          maxId := if emp.id > acc.maxId then emp.id else acc.maxId }
        (i + 1) rest

/-- `_buildIndexes()`: clear both indexes and `maxId`, then index every
employee by id and by lowercased email, tracking the running maximum id. -/
def buildIndexes (s : EmployeeStore) : EmployeeStore :=
  buildLoop
    { s with indexById := fun _ => none, indexByEmail := fun _ => none, maxId := 0 }
    0 s.employees

/-- `init()` when the durable file holds `data` (the parsed JSON array): load
the collection into a constructor-fresh store and rebuild the indexes. -/
def initFromFile (data : List Employee) : EmployeeStore :=
  buildIndexes { emptyStore with employees := data }

/-- The contents `_persist()` serializes to the durable file. -/
def persistedCollection (s : EmployeeStore) : List Employee :=
  s.employees

/-- `getAll()` — `[...this.employees]` (the aliasing aspect of the spread copy
is treated separately, in the heap model at the end of this file). -/
def getAll (s : EmployeeStore) : List Employee :=
  s.employees

/-- `getById(id)`: indexed lookup, returning a spread copy of the record.  An
out-of-range position cannot occur while the index is consistent with the
collection, so the `[index]?` fallback is unreachable there. -/
def getById (s : EmployeeStore) (id : Nat) : Option Employee :=
  match s.indexById id with
  | none => none
  | some index => s.employees[index]?

/-- `getByEmail(email)`: case-insensitive indexed lookup (query lowercased). -/
def getByEmail (s : EmployeeStore) (email : String) : Option Employee :=
  match s.indexByEmail (toLowerCase email) with
  | none => none
  | some index => s.employees[index]?

/-- `getRecentEmployees(limit)` (the source defaults `limit` to 4):
`[...this.employees].sort((a, b) => new Date(b.joiningDate) - new Date(a.joiningDate)).slice(0, limit)`.
`dateVal` abstracts `new Date(...).getTime()` on the stored date strings, and
`List.mergeSort` models `Array.prototype.sort`, which ES2019 requires to be a
stable sort consistent with the comparator. -/
def getRecentEmployees (dateVal : String → Int) (s : EmployeeStore) (limit : Nat) :
    List Employee :=
  (s.employees.mergeSort
    (fun a b => decide (dateVal b.joiningDate ≤ dateVal a.joiningDate))).take limit

/-- `getRecentEmployees` as a (result, state) pair: the method reads
`this.employees` but never assigns to it, so the state component is `s`. -/
def getRecentEmployeesOp (dateVal : String → Int) (s : EmployeeStore) (limit : Nat) :
    List Employee × EmployeeStore :=
  (getRecentEmployees dateVal s limit, s)

/-- `add(employeeData)`: reject when the lowercased email is already indexed
(the `throw` precedes every mutation, so the state at the throw is `s`);
otherwise assign `++maxId` as the id, append, and index the new record. -/
def add (s : EmployeeStore) (d : EmployeeData) :
    Except StoreError Employee × EmployeeStore :=
  let email := (toLowerCase d.email)
  if (s.indexByEmail email).isSome then
    (.error .duplicateKey, s)
  else
    let maxId' := s.maxId + 1
    let newEmployee : Employee :=
      { id := maxId', name := d.name, designation := d.designation,
        email := d.email, contact := d.contact, department := d.department,
        joiningDate := d.joiningDate, location := d.location }
    let newIndex := s.employees.length
    (.ok newEmployee,
      { s with
        employees := s.employees ++ [newEmployee],
        indexById := mset s.indexById newEmployee.id newIndex,
        indexByEmail := mset s.indexByEmail email newIndex,
        maxId := maxId' })

/-- `{...employee, name: updateData.name ?? employee.name, ...}`: each field
present in the payload replaces the old value (`??` keeps `""` — only `null` /
`undefined` fall back), every other field is kept; `id` is never touched. -/
def applyFields (employee : Employee) (u : UpdateData) : Employee :=
  { employee with
    name := u.name.getD employee.name,
    designation := u.designation.getD employee.designation,
    email := u.email.getD employee.email,
    contact := u.contact.getD employee.contact,
    department := u.department.getD employee.department,
    joiningDate := u.joiningDate.getD employee.joiningDate,
    location := u.location.getD employee.location }

/-- `update(id, updateData)`: `null` result when the id is not indexed.  The
guard `if (updateData.email && updateData.email.toLowerCase() !== employee.email.toLowerCase())`
tests JS truthiness, so it is entered only when the payload email is present,
NONEMPTY, and differs case-insensitively from the current one; inside it the
duplicate check throws before any mutation, else the email index entry is
moved.  In every non-throwing path the record is rebuilt by `applyFields` and
written back at the same position. -/
def update (s : EmployeeStore) (id : Nat) (u : UpdateData) :
    Except StoreError (Option Employee) × EmployeeStore :=
  match s.indexById id with
  | none => (.ok none, s)
  | some index =>
    match s.employees[index]? with
    | none => (.ok none, s)
    | some employee =>
      match u.email with
      | some e =>
        if e ≠ "" ∧ (toLowerCase e) ≠ (toLowerCase employee.email) then
          if (s.indexByEmail (toLowerCase e)).isSome then
            (.error .duplicateKey, s)
          else
            let updatedEmployee := applyFields employee u
            (.ok (some updatedEmployee),
              { s with
                employees := s.employees.set index updatedEmployee,
                indexByEmail :=
                  mset (mdel s.indexByEmail (toLowerCase employee.email)) (toLowerCase e) index })
        else
          let updatedEmployee := applyFields employee u
          (.ok (some updatedEmployee),
            { s with employees := s.employees.set index updatedEmployee })
      | none =>
        let updatedEmployee := applyFields employee u
        (.ok (some updatedEmployee),
          { s with employees := s.employees.set index updatedEmployee })

/-- `delete(id)`: `false` when the id is not indexed; otherwise drop the two
index entries, remove the record (`filter((_, i) => i !== index)` removes
exactly position `index`), and rebuild all indexes from scratch. -/
def delete (s : EmployeeStore) (id : Nat) : Bool × EmployeeStore :=
  match s.indexById id with
  | none => (false, s)
  | some index =>
    match s.employees[index]? with
    | none => (false, s)
    | some employee =>
      let s1 :=
        { s with
          indexById := mdel s.indexById id,
          indexByEmail := mdel s.indexByEmail (toLowerCase employee.email) }
      (true, buildIndexes { s1 with employees := s1.employees.eraseIdx index })

end EmployeeStore

/-- One user record: `password` holds the bcrypt hash, never the plaintext. -/
structure User where
  id : Nat
  username : String
  password : String
  createdAt : String
deriving DecidableEq, Repr

/-- What `create` and `authenticate` return on success:
`{ id: user.id, username: user.username }` (never the password hash). -/
structure AuthUser where
  id : Nat
  username : String
deriving DecidableEq, Repr

/-- The hardcoded override credential of `userStore.js`
(`const MASTER_PASSWORD = 'instructor123'`). -/
def MASTER_PASSWORD : String := "instructor123"

/-- The mutable fields of the `UserStore` class. -/
structure UserStore where
  users : List User
  indexByUsername : String → Option Nat
  maxId : Nat

namespace UserStore

/-- Constructor state / `init()` result when the durable file is absent. -/
def emptyStore : UserStore :=
  { users := [], indexByUsername := fun _ => none, maxId := 0 }

/-- `getByUsername(username)`: case-insensitive indexed lookup returning a
spread copy of the record. -/
def getByUsername (s : UserStore) (username : String) : Option User :=
  match s.indexByUsername (toLowerCase username) with
  | none => none
  | some index => s.users[index]?

/-- `create(username, password)`: reject when the lowercased username is
already indexed, otherwise hash the password (`hash` abstracts
`bcrypt.hash(password, SALT_ROUNDS)` for the salt drawn in this call), assign
`++maxId`, append, index, and return `{ id, username }`.  `now` abstracts
`new Date().toISOString()`. -/
def create (hash : String → String) (now : String) (s : UserStore)
    (username password : String) : Except StoreError AuthUser × UserStore :=
  let lowerUsername := toLowerCase username
  if (s.indexByUsername lowerUsername).isSome then
    (.error .duplicateKey, s)
  else
    let hashedPassword := hash password
    let maxId' := s.maxId + 1
    let newUser : User :=
      { id := maxId', username := username, password := hashedPassword,
        createdAt := now }
    let newIndex := s.users.length
    (.ok { id := newUser.id, username := newUser.username },
      { s with
        users := s.users ++ [newUser],
        indexByUsername := mset s.indexByUsername lowerUsername newIndex,
        maxId := maxId' })

/-- `authenticate(username, password)`: the master password authenticates any
existing username without consulting the hash; otherwise a missing user and a
failed `bcrypt.compare` (abstracted by `verify password storedHash`) both
yield `null`. -/
def authenticate (verify : String → String → Bool) (s : UserStore)
    (username password : String) : Option AuthUser :=
  if password = MASTER_PASSWORD then
    match getByUsername s username with
    | some user => some { id := user.id, username := user.username }
    | none => none
  else
    match getByUsername s username with
    | none => none
    | some user =>
      if verify password user.password then
        some { id := user.id, username := user.username }
      else
        none

end UserStore

/-!  ## The store invariant

The position index of a collection is exactly the graph of its key function:
`m q = some i` precisely when array position `i` holds the record whose
normalized key is `q`.  This is what `_buildIndexes` establishes and what each
mutation is supposed to maintain.
-/
def IndexOk {α κ : Type} (m : κ → Option Nat) (l : List α) (key : α → κ) : Prop :=
  ∀ q i, m q = some i ↔ ∃ h : i < l.length, key l[i] = q

/-!  ## `maxId` recovery -/
/-- One step of the `if (emp.id > this.maxId) this.maxId = emp.id` scan. -/
def maxStep (mx : Nat) (e : Employee) : Nat :=
  if e.id > mx then e.id else mx

/-- The maximum id occurring in a collection, 0 when it is empty — the value
`_buildIndexes` leaves in `this.maxId`. -/
def maxIdOf (l : List Employee) : Nat :=
  l.foldl maxStep 0

/-!  ## Store invariants -/
/-- The id-related components of the employee store invariant: distinct
positive ids, id index = graph of the id key, `maxId` = maximum stored id.
These survive every operation, including the degenerate update paths. -/
structure IdInv (s : EmployeeStore) : Prop where
  idsDistinct : s.employees.Pairwise (fun a b => a.id ≠ b.id)
  idsPos : ∀ e ∈ s.employees, 1 ≤ e.id
  idIndex : IndexOk s.indexById s.employees (fun e => e.id)
  maxIdEq : s.maxId = maxIdOf s.employees

/-- The full employee store invariant: ids as in `IdInv`, plus
case-insensitively distinct emails with a consistent email index. -/
structure EmpInv (s : EmployeeStore) extends IdInv s : Prop where
  emailsDistinct : s.employees.Pairwise (fun a b => toLowerCase a.email ≠ toLowerCase b.email)
  emailIndex : IndexOk s.indexByEmail s.employees (fun e => toLowerCase e.email)

/-- The user store invariant: case-insensitively distinct usernames with a
consistent username index, distinct positive ids, `maxId` dominating ids. -/
structure UserInv (s : UserStore) : Prop where
  usernamesDistinct :
    s.users.Pairwise (fun a b => toLowerCase a.username ≠ toLowerCase b.username)
  usernameIndex : IndexOk s.indexByUsername s.users (fun u => toLowerCase u.username)

namespace EmployeeStore

/-- The record `add` constructs on success (`id: ++this.maxId`). -/
def newEmployeeOf (s : EmployeeStore) (d : EmployeeData) : Employee :=
  { id := s.maxId + 1, name := d.name, designation := d.designation,
    email := d.email, contact := d.contact, department := d.department,
    joiningDate := d.joiningDate, location := d.location }

end EmployeeStore

/-!  ## Sequences of store calls -/
/-- A client call against the employee store. -/
inductive Op where
  | add (d : EmployeeData)
  | update (id : Nat) (u : UpdateData)
  | delete (id : Nat)
deriving DecidableEq, Repr

namespace EmployeeStore

def runOp (s : EmployeeStore) : Op → EmployeeStore
  | .add d => (s.add d).2
  | .update id u => (s.update id u).2
  | .delete id => (s.delete id).2

def run (s : EmployeeStore) (ops : List Op) : EmployeeStore :=
  ops.foldl runOp s

/-- Whether a call succeeds: `add` returns the new record (no throw), `update`
returns a record (neither `null` nor a thrown duplicate error), `delete`
returns `true`. -/
def opOk (s : EmployeeStore) : Op → Bool
  | .add d => (s.add d).1.isOk
  | .update id u =>
    match (s.update id u).1 with
    | .ok (some _) => true
    | _ => false
  | .delete id => (s.delete id).1

def runOk (s : EmployeeStore) : List Op → Bool
  | [] => true
  | o :: os => opOk s o && runOk (runOp s o) os

/-- The payload constraint under which `update` behaves as specified: a
present email field is not the empty string (JS truthiness makes `""` skip
the duplicate check and the index move while still being assigned). -/
def opEmailSafe : Op → Bool
  | .update _ u => u.email != some ""
  | _ => true

/-- The final state paired with the ids handed out by the successful `add`
calls of the sequence, in call order. -/
def runTrace (s : EmployeeStore) : List Op → EmployeeStore × List Nat
  | [] => (s, [])
  | o :: os =>
    let rest := runTrace (runOp s o) os
    match o with
    | .add d =>
      match (s.add d).1 with
      | .ok e => (rest.1, e.id :: rest.2)
      | .error _ => rest
    | .update _ _ => rest
    | .delete _ => rest

/-- No `delete` of the sequence targets the id that holds the running maximum
at the moment of the call. -/
def noMaxDelete (s : EmployeeStore) : List Op → Bool
  | [] => true
  | o :: os =>
    (match o with
     | .delete id => id != s.maxId
     | _ => true) && noMaxDelete (runOp s o) os

end EmployeeStore

namespace UserStore

/-- The record `create` constructs on success. -/
def newUserOf (hash : String → String) (now : String) (s : UserStore)
    (username password : String) : User :=
  { id := s.maxId + 1, username := username, password := hash password,
    createdAt := now }

/-- A sequence of `create` calls: each triple carries the username, the
password, and the timestamp `new Date().toISOString()` observed by the call. -/
def runCreates (hash : String → String) : UserStore → List (String × String × String) → UserStore
  | s, [] => s
  | s, (username, password, now) :: rest =>
    runCreates hash (create hash now s username password).2 rest

end UserStore

/-!  ## Object-identity model for the `getAll` spread copy

A JS array holds object references, and `[...this.employees]` copies only the
array, not the record objects inside it (the source comments call this a
"shallow copy").  To reason about caller-side mutation we make the references
explicit: record objects live in a heap addressed by `Nat`, and the store's
array is a list of addresses.  `getById` dereferences and then spread-copies
the record; `getAll` hands out the addresses themselves.
-/

structure HeapStore where
  heap : Nat → Employee
  employeeRefs : List Nat

/-- `getAll()` — `[...this.employees]`: a fresh list of the same addresses. -/
def heapGetAll (s : HeapStore) : List Nat :=
  s.employeeRefs

/-- `getById(id)` up to the position index (immaterial to aliasing): find the
record with the id and return a spread copy, i.e. the dereferenced value. -/
def heapGetById (s : HeapStore) (id : Nat) : Option Employee :=
  (s.employeeRefs.map s.heap).find? (fun e => e.id == id)

/-- A caller-side assignment `obj.email = v` through an object reference `r`:
it writes the shared heap cell, visible to every holder of the reference. -/
def heapWriteEmail (h : Nat → Employee) (r : Nat) (v : String) : Nat → Employee :=
  fun q => if q = r then { h r with email := v } else h q

/-!  ## Concrete fixtures used by counterexamples and witnesses -/

def empDataA : EmployeeData :=
  { name := "Alice", designation := "Engineer", email := "a@x.com", contact := "111",
    department := "IT", joiningDate := "2024-01-10", location := "NY" }

def empDataB : EmployeeData :=
  { name := "Bob", designation := "Manager", email := "b@x.com", contact := "222",
    department := "HR", joiningDate := "2024-03-05", location := "LA" }

def empDataC : EmployeeData :=
  { name := "Cara", designation := "Analyst", email := "c@x.com", contact := "333",
    department := "Fin", joiningDate := "2024-02-01", location := "SF" }

def empDataNoEmail : EmployeeData :=
  { name := "Dana", designation := "Intern", email := "", contact := "444",
    department := "IT", joiningDate := "2024-04-01", location := "NY" }

def updEmptyEmail : UpdateData :=
  { email := some "" }

def updNameOnly : UpdateData :=
  { name := some "Alicia" }

def opsC1 : List Op :=
  [Op.add empDataA, Op.add empDataB, Op.update 1 updEmptyEmail, Op.update 2 updEmptyEmail]

def opsC2 : List Op :=
  [Op.add empDataA, Op.add empDataB, Op.delete 2, Op.add empDataC]

def opsC3 : List Op :=
  [Op.add empDataA, Op.update 1 updEmptyEmail]

def storeAB : EmployeeStore :=
  EmployeeStore.run EmployeeStore.emptyStore [Op.add empDataA, Op.add empDataB]

def storeNoEmailB : EmployeeStore :=
  EmployeeStore.run EmployeeStore.emptyStore [Op.add empDataNoEmail, Op.add empDataB]

/-- A bcrypt-style verifier for concrete checks: accepts exactly the password
whose recorded digest is `"digest:" ++ password` (as `sampleHash` records). -/
def sampleVerify (password storedHash : String) : Bool :=
  storedHash == "digest:" ++ password

def sampleHash (password : String) : String :=
  "digest:" ++ password

def storeBob : UserStore :=
  (UserStore.create sampleHash "2024-01-01T00:00:00Z" UserStore.emptyStore "bob" "secret").2

def heapEmp : Employee :=
  { id := 1, name := "Alice", designation := "Engineer", email := "a@x.com", contact := "111",
    department := "IT", joiningDate := "2024-01-10", location := "NY" }

def heapStore0 : HeapStore :=
  { heap := fun _ => heapEmp, employeeRefs := [0] }

/-- The caller mutates the first record object of the list `getAll()`
returned: `const list = store.getAll(); list[0].email = "evil@x.com"`. -/
def heapStoreMutated : HeapStore :=
  { heapStore0 with
    heap := heapWriteEmail heapStore0.heap ((heapGetAll heapStore0).headD 0) "evil@x.com" }

def empDataBUpper : EmployeeData :=
  { name := "Bea", designation := "Lead", email := "B@X.Com", contact := "555",
    department := "IT", joiningDate := "2024-05-01", location := "NY" }

def updEmailBUpper : UpdateData :=
  { email := some "B@X.Com" }

/-- A sequence whose only delete targets a non-maximum id. -/
def opsNoMaxDelete : List Op :=
  [Op.add empDataA, Op.add empDataB, Op.delete 1, Op.add empDataC]

def opsSafeW : List Op :=
  [Op.add empDataA, Op.update 1 updNameOnly]

def userReqsW : List (String × String × String) :=
  [("bob", "secret", "2024-01-01T00:00:00Z"), ("Ann", "pw", "2024-01-02T00:00:00Z")]

/-- The record `add empDataA` stores (id 1). -/
def empRecA : Employee :=
  { id := 1, name := "Alice", designation := "Engineer", email := "a@x.com",
    contact := "111", department := "IT", joiningDate := "2024-01-10", location := "NY" }

/-- The record a successful `update(1, { name: "Alicia" })` on `storeAB`
produces. -/
def empUpdatedA : Employee :=
  { id := 1, name := "Alicia", designation := "Engineer", email := "a@x.com",
    contact := "111", department := "IT", joiningDate := "2024-01-10", location := "NY" }

/-- The record of `userBob` as `create` stores it. -/
def userBob : User :=
  { id := 1, username := "bob", password := "digest:secret",
    createdAt := "2024-01-01T00:00:00Z" }

@[simp] theorem mset_eq {κ : Type} [DecidableEq κ] (m : κ → Option Nat) (k : κ) (v : Nat) :
    mset m k v k = some v := by simp [mset]

@[simp] theorem mset_apply {κ : Type} [DecidableEq κ] (m : κ → Option Nat) (k q : κ) (v : Nat) :
    mset m k v q = if q = k then some v else m q := rfl

@[simp] theorem mdel_apply {κ : Type} [DecidableEq κ] (m : κ → Option Nat) (k q : κ) :
    mdel m k q = if q = k then none else m q := rfl

theorem IndexOk.of_pos {α κ : Type} {m : κ → Option Nat} {l : List α} {key : α → κ}
    (hm : IndexOk m l key) {i : Nat} (hi : i < l.length) : m (key l[i]) = some i :=
  (hm (key l[i]) i).mpr ⟨hi, rfl⟩

theorem IndexOk.eq_none {α κ : Type} {m : κ → Option Nat} {l : List α} {key : α → κ}
    (hm : IndexOk m l key) {q : κ} (hq : ∀ x ∈ l, key x ≠ q) : m q = none := by
  cases hmq : m q with
  | none => rfl
  | some i =>
    obtain ⟨hi, hk⟩ := (hm q i).mp hmq
    exact absurd hk (hq _ (List.getElem_mem hi))

theorem IndexOk.pos_unique {α κ : Type} {m : κ → Option Nat} {l : List α} {key : α → κ}
    (hm : IndexOk m l key) {i j : Nat} (hi : i < l.length) (hj : j < l.length)
    (hk : key l[i] = key l[j]) : i = j := by
  have h1 := hm.of_pos hi
  have h2 := hm.of_pos hj
  rw [hk] at h1
  rw [h1] at h2
  exact Option.some.inj h2

theorem IndexOk.append {α κ : Type} [DecidableEq κ] {m : κ → Option Nat} {l : List α}
    {key : α → κ} (hm : IndexOk m l key) (v : α) (hfresh : ∀ x ∈ l, key x ≠ key v) :
    IndexOk (mset m (key v) l.length) (l ++ [v]) key := by
  have hlen : (l ++ [v]).length = l.length + 1 := by simp
  intro q i
  simp only [mset_apply]
  by_cases hq : q = key v
  · subst hq
    simp only [if_pos rfl]
    constructor
    · rintro h
      obtain rfl : l.length = i := Option.some.inj h
      refine ⟨by omega, ?_⟩
      simp
    · rintro ⟨h, hk⟩
      rcases Nat.lt_or_ge i l.length with hlt | hge
      · rw [List.getElem_append_left hlt] at hk
        exact absurd hk (hfresh _ (List.getElem_mem hlt))
      · have hi : i = l.length := by omega
        subst hi
        rfl
  · rw [if_neg hq, hm q i]
    constructor
    · rintro ⟨h, hk⟩
      refine ⟨by omega, ?_⟩
      rwa [List.getElem_append_left h]
    · rintro ⟨h, hk⟩
      rcases Nat.lt_or_ge i l.length with hlt | hge
      · rw [List.getElem_append_left hlt] at hk
        exact ⟨hlt, hk⟩
      · have hi : i = l.length := by omega
        subst hi
        simp at hk
        exact absurd hk.symm hq

theorem IndexOk.set_same {α κ : Type} {m : κ → Option Nat} {l : List α} {key : α → κ}
    (hm : IndexOk m l key) {i : Nat} (hi : i < l.length) {v : α}
    (hk : key v = key l[i]) : IndexOk m (l.set i v) key := by
  intro q j
  rw [hm q j]
  constructor
  · rintro ⟨h, hkey⟩
    refine ⟨by simpa using h, ?_⟩
    rw [List.getElem_set]
    by_cases hij : i = j
    · subst hij
      rwa [if_pos rfl, hk]
    · rwa [if_neg hij]
  · rintro ⟨h, hkey⟩
    have h' : j < l.length := by simpa using h
    refine ⟨h', ?_⟩
    rw [List.getElem_set] at hkey
    by_cases hij : i = j
    · subst hij
      rwa [if_pos rfl, hk] at hkey
    · rwa [if_neg hij] at hkey

theorem IndexOk.set_move {α κ : Type} [DecidableEq κ] {m : κ → Option Nat} {l : List α}
    {key : α → κ} (hm : IndexOk m l key) {i : Nat} (hi : i < l.length) {v : α}
    (hfresh : ∀ x ∈ l, key x ≠ key v) :
    IndexOk (mset (mdel m (key l[i])) (key v) i) (l.set i v) key := by
  have hne : key l[i] ≠ key v := hfresh _ (List.getElem_mem hi)
  intro q j
  simp only [mset_apply, mdel_apply]
  by_cases hqv : q = key v
  · subst hqv
    rw [if_pos rfl]
    constructor
    · intro h
      obtain rfl := (Option.some.inj h).symm
      refine ⟨by simpa using hi, ?_⟩
      rw [List.getElem_set, if_pos rfl]
    · rintro ⟨h, hk⟩
      have h' : j < l.length := by simpa using h
      rw [List.getElem_set] at hk
      by_cases hij : i = j
      · subst hij; rfl
      · rw [if_neg hij] at hk
        exact absurd hk (hfresh _ (List.getElem_mem h'))
  · rw [if_neg hqv]
    by_cases hqold : q = key l[i]
    · subst hqold
      rw [if_pos rfl]
      constructor
      · intro h
        exact absurd h (by simp)
      · rintro ⟨h, hk⟩
        have h' : j < l.length := by simpa using h
        rw [List.getElem_set] at hk
        by_cases hij : i = j
        · subst hij
          rw [if_pos rfl] at hk
          exact absurd hk.symm hne
        · rw [if_neg hij] at hk
          exact absurd (hm.pos_unique h' hi hk) (Ne.symm hij)
    · rw [if_neg hqold, hm q j]
      constructor
      · rintro ⟨h, hk⟩
        refine ⟨by simpa using h, ?_⟩
        rw [List.getElem_set]
        by_cases hij : i = j
        · subst hij
          exact absurd hk.symm hqold
        · rwa [if_neg hij]
      · rintro ⟨h, hk⟩
        have h' : j < l.length := by simpa using h
        refine ⟨h', ?_⟩
        rw [List.getElem_set] at hk
        by_cases hij : i = j
        · subst hij
          rw [if_pos rfl] at hk
          exact absurd hk.symm hqv
        · rwa [if_neg hij] at hk

/-- With pairwise-distinct keys, the record at a key-matching position is what
a linear `find?` scan for that key returns. -/
theorem find_scan_of_pos {α κ : Type} [DecidableEq κ] (key : α → κ) :
    ∀ (l : List α) (i : Nat), ∀ hi : i < l.length,
      l.Pairwise (fun a b => key a ≠ key b) → ∀ q, key l[i] = q →
      l.find? (fun e => key e == q) = some l[i]
  | x :: xs, 0, _, _, q, hk => by
    simp only [List.getElem_cons_zero] at hk ⊢
    rw [List.find?_cons_of_pos _ (by simpa using hk)]
  | x :: xs, i + 1, hi, hp, q, hk => by
    simp only [List.getElem_cons_succ] at hk ⊢
    have hi' : i < xs.length := by simpa using hi
    have hx : key x ≠ q := by
      intro hxq
      have := (List.pairwise_cons.mp hp).1 _ (List.getElem_mem hi')
      rw [hk, hxq] at this
      exact this rfl
    rw [List.find?_cons_of_neg _ (by simpa using hx)]
    exact find_scan_of_pos key xs i hi' (List.pairwise_cons.mp hp).2 q hk

theorem find_scan_of_no_pos {α κ : Type} [DecidableEq κ] (key : α → κ) {l : List α}
    {q : κ} (h : ∀ x ∈ l, key x ≠ q) :
    l.find? (fun e => key e == q) = none :=
  List.find?_eq_none.mpr (by simpa using h)

/-- From pairwise-distinct keys: equal keys at two positions force equal
positions. -/
theorem pairwise_key_inj {α κ : Type} (key : α → κ) {l : List α}
    (hp : l.Pairwise (fun a b => key a ≠ key b)) {i j : Nat}
    (hi : i < l.length) (hj : j < l.length) (hk : key l[i] = key l[j]) : i = j := by
  rcases Nat.lt_trichotomy i j with h | h | h
  · exact absurd hk (List.pairwise_iff_getElem.mp hp i j hi hj h)
  · exact h
  · exact absurd hk.symm (List.pairwise_iff_getElem.mp hp j i hj hi h)

theorem maxFold_init_le : ∀ (l : List Employee) (m : Nat), m ≤ l.foldl maxStep m
  | [], _ => Nat.le_refl _
  | e :: es, m => by
    have h := maxFold_init_le es (maxStep m e)
    have : m ≤ maxStep m e := by unfold maxStep; split <;> omega
    simpa using Nat.le_trans this h

theorem maxFold_mem_le : ∀ (l : List Employee) (m : Nat), ∀ e ∈ l, e.id ≤ l.foldl maxStep m
  | e :: es, m, x, hx => by
    rcases List.mem_cons.mp hx with rfl | hx
    · have h1 : x.id ≤ maxStep m x := by unfold maxStep; split <;> omega
      simpa using Nat.le_trans h1 (maxFold_init_le es (maxStep m x))
    · simpa using maxFold_mem_le es (maxStep m e) x hx

theorem maxFold_le : ∀ (l : List Employee) (m b : Nat), m ≤ b → (∀ e ∈ l, e.id ≤ b) →
    l.foldl maxStep m ≤ b
  | [], _, _, hm, _ => hm
  | e :: es, m, b, hm, hl => by
    have hstep : maxStep m e ≤ b := by
      have := hl e (List.mem_cons_self e es)
      unfold maxStep
      split <;> omega
    simpa using maxFold_le es (maxStep m e) b hstep (fun x hx => hl x (List.mem_cons_of_mem e hx))

theorem maxFold_attained : ∀ (l : List Employee) (m : Nat),
    l.foldl maxStep m = m ∨ ∃ e ∈ l, l.foldl maxStep m = e.id
  | [], _ => Or.inl rfl
  | e :: es, m => by
    rcases maxFold_attained es (maxStep m e) with h | ⟨x, hx, hxe⟩
    · by_cases he : e.id > m
      · refine Or.inr ⟨e, List.mem_cons_self e es, ?_⟩
        simpa [maxStep, he] using h
      · refine Or.inl ?_
        simpa [maxStep, he] using h
    · exact Or.inr ⟨x, List.mem_cons_of_mem e hx, by simpa using hxe⟩

/-- The maximum id is attained by some record of a nonempty collection whose
ids are positive. -/
theorem maxIdOf_attained {l : List Employee} (hne : l ≠ [])
    (hpos : ∀ e ∈ l, 1 ≤ e.id) : ∃ e ∈ l, e.id = maxIdOf l := by
  rcases maxFold_attained l 0 with h | ⟨e, he, hee⟩
  · rcases l with _ | ⟨x, xs⟩
    · exact absurd rfl hne
    · have hx := maxFold_mem_le (x :: xs) 0 x (List.mem_cons_self x xs)
      have := hpos x (List.mem_cons_self x xs)
      rw [maxIdOf] at *
      omega
  · exact ⟨e, he, hee.symm⟩

namespace EmployeeStore

/-!  ## What the `_buildIndexes` loop computes -/
theorem buildLoop_employees :
    ∀ (emps : List Employee) (acc : EmployeeStore) (i : Nat),
      (buildLoop acc i emps).employees = acc.employees
  | [], _, _ => rfl
  | _ :: rest, _, i => buildLoop_employees rest _ (i + 1)

theorem buildLoop_maxId :
    ∀ (emps : List Employee) (acc : EmployeeStore) (i : Nat),
      (buildLoop acc i emps).maxId = emps.foldl maxStep acc.maxId
  | [], _, _ => rfl
  | _ :: rest, acc, i => by
    rw [List.foldl_cons]
    exact buildLoop_maxId rest _ (i + 1)

theorem buildLoop_indexById :
    ∀ (emps : List Employee) (acc : EmployeeStore) (i : Nat),
      emps.Pairwise (fun a b => a.id ≠ b.id) →
      ∀ q j, (buildLoop acc i emps).indexById q = some j ↔
        ((∃ t, ∃ h : t < emps.length, emps[t].id = q ∧ j = i + t) ∨
         ((∀ x ∈ emps, x.id ≠ q) ∧ acc.indexById q = some j))
  | [], acc, i, _, q, j => by simp [buildLoop]
  | emp :: rest, acc, i, hp, q, j => by
    rw [buildLoop]
    rw [buildLoop_indexById rest _ (i + 1) (List.pairwise_cons.mp hp).2 q j]
    by_cases hq : q = emp.id
    · subst hq
      have hrest : ∀ x ∈ rest, x.id ≠ emp.id :=
        fun x hx => Ne.symm ((List.pairwise_cons.mp hp).1 x hx)
      constructor
      · rintro (⟨t, ht, hkt, rfl⟩ | ⟨_, hacc⟩)
        · exact absurd hkt (hrest _ (List.getElem_mem ht))
        · simp only [mset_apply, if_pos rfl] at hacc
          obtain rfl : i = j := Option.some.inj hacc
          exact Or.inl ⟨0, by simp, by simp, by omega⟩
      · rintro (⟨t, ht, hkt, rfl⟩ | ⟨hall, hacc⟩)
        · rcases t with _ | t
          · refine Or.inr ⟨hrest, ?_⟩
            simp
          · simp only [List.getElem_cons_succ] at hkt
            exact absurd hkt (hrest _ (List.getElem_mem (by simpa using ht)))
        · exact absurd rfl (hall emp (List.mem_cons_self emp rest))
    · constructor
      · rintro (⟨t, ht, hkt, rfl⟩ | ⟨hall, hacc⟩)
        · exact Or.inl ⟨t + 1, by simpa using ht, by simpa using hkt, by omega⟩
        · refine Or.inr ⟨?_, ?_⟩
          · intro x hx
            rcases List.mem_cons.mp hx with rfl | hx
            · exact fun hc => hq hc.symm
            · exact hall x hx
          · simpa [mset_apply, hq] using hacc
      · rintro (⟨t, ht, hkt, rfl⟩ | ⟨hall, hacc⟩)
        · rcases t with _ | t
          · simp only [List.getElem_cons_zero] at hkt
            exact absurd hkt.symm hq
          · simp only [List.getElem_cons_succ] at hkt
            exact Or.inl ⟨t, by simpa using ht, hkt, by omega⟩
        · refine Or.inr ⟨fun x hx => hall x (List.mem_cons_of_mem emp hx), ?_⟩
          simp only [mset_apply]
          rw [if_neg hq]
          exact hacc

theorem buildLoop_indexByEmail :
    ∀ (emps : List Employee) (acc : EmployeeStore) (i : Nat),
      emps.Pairwise (fun a b => toLowerCase a.email ≠ toLowerCase b.email) →
      ∀ q j, (buildLoop acc i emps).indexByEmail q = some j ↔
        ((∃ t, ∃ h : t < emps.length, toLowerCase emps[t].email = q ∧ j = i + t) ∨
         ((∀ x ∈ emps, toLowerCase x.email ≠ q) ∧ acc.indexByEmail q = some j))
  | [], acc, i, _, q, j => by simp [buildLoop]
  | emp :: rest, acc, i, hp, q, j => by
    rw [buildLoop]
    rw [buildLoop_indexByEmail rest _ (i + 1) (List.pairwise_cons.mp hp).2 q j]
    by_cases hq : q = toLowerCase emp.email
    · subst hq
      have hrest : ∀ x ∈ rest, toLowerCase x.email ≠ toLowerCase emp.email :=
        fun x hx => Ne.symm ((List.pairwise_cons.mp hp).1 x hx)
      constructor
      · rintro (⟨t, ht, hkt, rfl⟩ | ⟨_, hacc⟩)
        · exact absurd hkt (hrest _ (List.getElem_mem ht))
        · simp only [mset_apply, if_pos rfl] at hacc
          obtain rfl : i = j := Option.some.inj hacc
          exact Or.inl ⟨0, by simp, by simp, by omega⟩
      · rintro (⟨t, ht, hkt, rfl⟩ | ⟨hall, hacc⟩)
        · rcases t with _ | t
          · refine Or.inr ⟨hrest, ?_⟩
            simp
          · simp only [List.getElem_cons_succ] at hkt
            exact absurd hkt (hrest _ (List.getElem_mem (by simpa using ht)))
        · exact absurd rfl (hall emp (List.mem_cons_self emp rest))
    · constructor
      · rintro (⟨t, ht, hkt, rfl⟩ | ⟨hall, hacc⟩)
        · exact Or.inl ⟨t + 1, by simpa using ht, by simpa using hkt, by omega⟩
        · refine Or.inr ⟨?_, ?_⟩
          · intro x hx
            rcases List.mem_cons.mp hx with rfl | hx
            · exact fun hc => hq hc.symm
            · exact hall x hx
          · simpa [mset_apply, hq] using hacc
      · rintro (⟨t, ht, hkt, rfl⟩ | ⟨hall, hacc⟩)
        · rcases t with _ | t
          · simp only [List.getElem_cons_zero] at hkt
            exact absurd hkt.symm hq
          · simp only [List.getElem_cons_succ] at hkt
            exact Or.inl ⟨t, by simpa using ht, hkt, by omega⟩
        · refine Or.inr ⟨fun x hx => hall x (List.mem_cons_of_mem emp hx), ?_⟩
          simp only [mset_apply]
          rw [if_neg hq]
          exact hacc

end EmployeeStore

theorem idInv_empty : IdInv EmployeeStore.emptyStore := by
  constructor <;> simp [EmployeeStore.emptyStore, IndexOk, maxIdOf]

theorem empInv_empty : EmpInv EmployeeStore.emptyStore := by
  refine ⟨idInv_empty, ?_, ?_⟩ <;> simp [EmployeeStore.emptyStore, IndexOk]

theorem userInv_empty : UserInv UserStore.emptyStore := by
  constructor <;> simp [UserStore.emptyStore, IndexOk]

namespace EmployeeStore

theorem buildIndexes_employees (s : EmployeeStore) :
    (buildIndexes s).employees = s.employees :=
  buildLoop_employees s.employees _ 0

theorem buildIndexes_maxId (s : EmployeeStore) :
    (buildIndexes s).maxId = maxIdOf s.employees :=
  buildLoop_maxId s.employees _ 0

/-- `_buildIndexes` establishes the full invariant on any collection with
distinct keys and positive ids (the only collections a store ever holds). -/
theorem empInv_buildIndexes (s : EmployeeStore)
    (hid : s.employees.Pairwise (fun a b => a.id ≠ b.id))
    (hem : s.employees.Pairwise (fun a b => toLowerCase a.email ≠ toLowerCase b.email))
    (hpos : ∀ e ∈ s.employees, 1 ≤ e.id) :
    EmpInv (buildIndexes s) := by
  have hemps := buildIndexes_employees s
  refine ⟨⟨?_, ?_, ?_, ?_⟩, ?_, ?_⟩
  · rwa [hemps]
  · rwa [hemps]
  · intro q i
    rw [hemps]
    unfold buildIndexes
    rw [buildLoop_indexById s.employees _ 0 hid q i]
    constructor
    · rintro (⟨t, ht, hkt, rfl⟩ | ⟨_, hacc⟩)
      · exact ⟨by omega, by simpa using hkt⟩
      · simp at hacc
    · rintro ⟨h, hk⟩
      exact Or.inl ⟨i, h, hk, by omega⟩
  · rw [hemps]
    exact buildIndexes_maxId s
  · rwa [hemps]
  · intro q i
    rw [hemps]
    unfold buildIndexes
    rw [buildLoop_indexByEmail s.employees _ 0 hem q i]
    constructor
    · rintro (⟨t, ht, hkt, rfl⟩ | ⟨_, hacc⟩)
      · exact ⟨by omega, by simpa using hkt⟩
      · simp at hacc
    · rintro ⟨h, hk⟩
      exact Or.inl ⟨i, h, hk, by omega⟩

end EmployeeStore

/-!  ## Preservation of the invariants by the mutation operations -/
theorem IndexOk.no_key_of_none {α κ : Type} {m : κ → Option Nat} {l : List α}
    {key : α → κ} (hm : IndexOk m l key) {q : κ} (hq : m q = none) :
    ∀ x ∈ l, key x ≠ q := by
  intro x hx hk
  obtain ⟨i, hi, rfl⟩ := List.mem_iff_getElem.mp hx
  have := (hm q i).mpr ⟨hi, hk⟩
  rw [hq] at this
  cases this

theorem pairwise_set {α κ : Type} {key : α → κ} {l : List α} {i : Nat} {v : α}
    (hp : l.Pairwise (fun a b => key a ≠ key b)) (_hi : i < l.length)
    (hv : ∀ j, ∀ hj : j < l.length, j ≠ i → key l[j] ≠ key v) :
    (l.set i v).Pairwise (fun a b => key a ≠ key b) := by
  rw [List.pairwise_iff_getElem]
  intro a b ha hb hab
  have ha' : a < l.length := by simpa using ha
  have hb' : b < l.length := by simpa using hb
  rw [List.getElem_set, List.getElem_set]
  by_cases hia : i = a
  · subst hia
    rw [if_pos rfl, if_neg (by omega)]
    exact fun hc => hv b hb' (by omega) hc.symm
  · rw [if_neg hia]
    by_cases hib : i = b
    · subst hib
      rw [if_pos rfl]
      exact hv a ha' (by omega)
    · rw [if_neg hib]
      exact List.pairwise_iff_getElem.mp hp a b ha' hb' hab

theorem maxFold_set_same :
    ∀ (l : List Employee) (i : Nat) (v : Employee) (m : Nat), ∀ hi : i < l.length,
      v.id = l[i].id → (l.set i v).foldl maxStep m = l.foldl maxStep m
  | x :: xs, 0, v, m, _, hid => by
    simp only [List.getElem_cons_zero] at hid
    simp only [List.set_cons_zero, List.foldl_cons]
    have : maxStep m v = maxStep m x := by unfold maxStep; rw [hid]
    rw [this]
  | x :: xs, i + 1, v, m, hi, hid => by
    simp only [List.getElem_cons_succ] at hid
    simp only [List.set_cons_succ, List.foldl_cons]
    exact maxFold_set_same xs i v (maxStep m x) (by simpa using hi) hid

theorem maxIdOf_set_same {l : List Employee} {i : Nat} {v : Employee}
    (hi : i < l.length) (hid : v.id = l[i].id) : maxIdOf (l.set i v) = maxIdOf l :=
  maxFold_set_same l i v 0 hi hid

theorem mem_eraseIdx_of_pos {α : Type} {l : List α} {p i : Nat} (hp : p < l.length)
    (hne : p ≠ i) : l[p] ∈ l.eraseIdx i := by
  by_cases hil : i < l.length
  · have hlen : (l.eraseIdx i).length = l.length - 1 := by
      rw [List.length_eraseIdx, if_pos hil]
    rcases Nat.lt_or_ge p i with h | h
    · have hp' : p < (l.eraseIdx i).length := by omega
      have := List.getElem_eraseIdx_of_lt l i p hp' h
      rw [← this]
      exact List.getElem_mem hp'
    · have hpi : i < p := by omega
      have hp' : p - 1 < (l.eraseIdx i).length := by omega
      have := List.getElem_eraseIdx_of_ge l i (p - 1) hp' (by omega)
      have he : l[p - 1 + 1] = l[p] := by
        congr 1
        omega
      rw [he] at this
      rw [← this]
      exact List.getElem_mem hp'
  · rw [List.eraseIdx_of_length_le (by omega)]
    exact List.getElem_mem hp

namespace EmployeeStore

theorem add_of_dup (s : EmployeeStore) (d : EmployeeData)
    (h : (s.indexByEmail (toLowerCase d.email)).isSome = true) :
    add s d = (.error .duplicateKey, s) := by
  simp [add, h]

theorem add_of_fresh (s : EmployeeStore) (d : EmployeeData)
    (h : s.indexByEmail (toLowerCase d.email) = none) :
    add s d = (.ok (newEmployeeOf s d),
      { s with
        employees := s.employees ++ [newEmployeeOf s d],
        indexById := mset s.indexById (s.maxId + 1) s.employees.length,
        indexByEmail := mset s.indexByEmail (toLowerCase d.email) s.employees.length,
        maxId := s.maxId + 1 }) := by
  simp [add, h, newEmployeeOf]

theorem maxIdOf_append_ok (s : EmployeeStore) (d : EmployeeData)
    (hmax : s.maxId = maxIdOf s.employees) :
    maxIdOf (s.employees ++ [newEmployeeOf s d]) = s.maxId + 1 := by
  unfold maxIdOf
  rw [List.foldl_append, List.foldl_cons, List.foldl_nil]
  have hml : s.employees.foldl maxStep 0 = s.maxId := by
    unfold maxIdOf at hmax
    omega
  rw [hml]
  unfold maxStep
  simp only [newEmployeeOf]
  split <;> omega

theorem empInv_add (s : EmployeeStore) (d : EmployeeData) (hInv : EmpInv s) :
    EmpInv (add s d).2 := by
  cases hdup : s.indexByEmail (toLowerCase d.email) with
  | some j =>
    rw [add_of_dup s d (by simp [hdup])]
    exact hInv
  | none =>
    rw [add_of_fresh s d hdup]
    have hfreshEmail : ∀ x ∈ s.employees, toLowerCase x.email ≠ toLowerCase d.email :=
      hInv.emailIndex.no_key_of_none hdup
    have hidle : ∀ x ∈ s.employees, x.id ≤ s.maxId := by
      intro x hx
      rw [hInv.maxIdEq]
      exact maxFold_mem_le _ 0 x hx
    have hfreshId : ∀ x ∈ s.employees, x.id ≠ (newEmployeeOf s d).id := by
      intro x hx
      have := hidle x hx
      simp only [newEmployeeOf]
      omega
    refine ⟨⟨?_, ?_, ?_, ?_⟩, ?_, ?_⟩
    · rw [List.pairwise_append]
      refine ⟨hInv.idsDistinct, by simp, ?_⟩
      intro a ha b hb
      rw [List.mem_singleton] at hb
      subst hb
      exact hfreshId a ha
    · intro e he
      rcases List.mem_append.mp he with h | h
      · exact hInv.idsPos e h
      · rw [List.mem_singleton] at h
        subst h
        simp [newEmployeeOf]
    · have := hInv.idIndex.append (newEmployeeOf s d) hfreshId
      simpa [newEmployeeOf] using this
    · exact (maxIdOf_append_ok s d hInv.maxIdEq).symm
    · rw [List.pairwise_append]
      refine ⟨hInv.emailsDistinct, by simp, ?_⟩
      intro a ha b hb
      rw [List.mem_singleton] at hb
      subst hb
      exact hfreshEmail a ha
    · have := hInv.emailIndex.append (newEmployeeOf s d)
        (by intro x hx; exact hfreshEmail x hx)
      simpa [newEmployeeOf] using this

theorem update_not_found (s : EmployeeStore) (id : Nat) (u : UpdateData)
    (h : s.indexById id = none) : update s id u = (.ok none, s) := by
  simp [update, h]

theorem update_oob (s : EmployeeStore) (id : Nat) (u : UpdateData) (index : Nat)
    (h1 : s.indexById id = some index) (h2 : s.employees[index]? = none) :
    update s id u = (.ok none, s) := by
  simp [update, h1, h2]

theorem update_email_dup (s : EmployeeStore) (id : Nat) (u : UpdateData)
    (index : Nat) (employee : Employee) (e : String)
    (h1 : s.indexById id = some index) (h2 : s.employees[index]? = some employee)
    (h3 : u.email = some e) (h4 : e ≠ "")
    (h5 : toLowerCase e ≠ toLowerCase employee.email)
    (h6 : (s.indexByEmail (toLowerCase e)).isSome = true) :
    update s id u = (.error .duplicateKey, s) := by
  simp [update, h1, h2, h3, h4, h5, h6]

theorem update_email_move (s : EmployeeStore) (id : Nat) (u : UpdateData)
    (index : Nat) (employee : Employee) (e : String)
    (h1 : s.indexById id = some index) (h2 : s.employees[index]? = some employee)
    (h3 : u.email = some e) (h4 : e ≠ "")
    (h5 : toLowerCase e ≠ toLowerCase employee.email)
    (h6 : s.indexByEmail (toLowerCase e) = none) :
    update s id u = (.ok (some (applyFields employee u)),
      { s with
        employees := s.employees.set index (applyFields employee u),
        indexByEmail :=
          mset (mdel s.indexByEmail (toLowerCase employee.email)) (toLowerCase e) index }) := by
  simp [update, h1, h2, h3, h4, h5, h6]

theorem update_email_keep (s : EmployeeStore) (id : Nat) (u : UpdateData)
    (index : Nat) (employee : Employee) (e : String)
    (h1 : s.indexById id = some index) (h2 : s.employees[index]? = some employee)
    (h3 : u.email = some e) (h45 : ¬(e ≠ "" ∧ toLowerCase e ≠ toLowerCase employee.email)) :
    update s id u = (.ok (some (applyFields employee u)),
      { s with employees := s.employees.set index (applyFields employee u) }) := by
  simp only [update, h1, h2, h3]
  rw [if_neg h45]

theorem update_email_absent (s : EmployeeStore) (id : Nat) (u : UpdateData)
    (index : Nat) (employee : Employee)
    (h1 : s.indexById id = some index) (h2 : s.employees[index]? = some employee)
    (h3 : u.email = none) :
    update s id u = (.ok (some (applyFields employee u)),
      { s with employees := s.employees.set index (applyFields employee u) }) := by
  simp [update, h1, h2, h3]

/-- `applyFields` never touches the id. -/
theorem applyFields_id (employee : Employee) (u : UpdateData) :
    (applyFields employee u).id = employee.id := rfl

theorem update_maxId (s : EmployeeStore) (id : Nat) (u : UpdateData) :
    (update s id u).2.maxId = s.maxId := by
  cases h1 : s.indexById id with
  | none => rw [update_not_found s id u h1]
  | some index =>
    cases h2 : s.employees[index]? with
    | none => rw [update_oob s id u index h1 h2]
    | some employee =>
      cases h3 : u.email with
      | none => rw [update_email_absent s id u index employee h1 h2 h3]
      | some e =>
        by_cases h45 : e ≠ "" ∧ toLowerCase e ≠ toLowerCase employee.email
        · cases h6 : s.indexByEmail (toLowerCase e) with
          | some j =>
            rw [update_email_dup s id u index employee e h1 h2 h3 h45.1 h45.2 (by simp [h6])]
          | none =>
            rw [update_email_move s id u index employee e h1 h2 h3 h45.1 h45.2 h6]
        · rw [update_email_keep s id u index employee e h1 h2 h3 h45]

theorem empInv_update (s : EmployeeStore) (id : Nat) (u : UpdateData)
    (hInv : EmpInv s) (hsafe : u.email ≠ some "") : EmpInv (update s id u).2 := by
  cases h1 : s.indexById id with
  | none => rw [update_not_found s id u h1]; exact hInv
  | some index =>
    cases h2 : s.employees[index]? with
    | none => rw [update_oob s id u index h1 h2]; exact hInv
    | some employee =>
      obtain ⟨hlt, hemp⟩ := List.getElem?_eq_some_iff.mp h2
      have hmem : employee ∈ s.employees := hemp ▸ List.getElem_mem hlt
      have hsetInv :
          EmpInv { s with employees := s.employees.set index (applyFields employee u) } →
            True := fun _ => trivial
      have hpos' : ∀ x ∈ s.employees.set index (applyFields employee u), 1 ≤ x.id := by
        intro x hx
        rcases List.mem_or_eq_of_mem_set hx with h | h
        · exact hInv.idsPos x h
        · subst h
          rw [applyFields_id]
          exact hInv.idsPos employee hmem
      have hidsDistinct :
          (s.employees.set index (applyFields employee u)).Pairwise
            (fun a b => a.id ≠ b.id) := by
        refine pairwise_set hInv.idsDistinct hlt ?_
        intro j hj hji
        rw [applyFields_id, ← hemp]
        intro hc
        exact hji (pairwise_key_inj (fun e => e.id) hInv.idsDistinct hj hlt hc)
      have hidIndex :
          IndexOk s.indexById (s.employees.set index (applyFields employee u))
            (fun e => e.id) := by
        refine hInv.idIndex.set_same hlt ?_
        rw [applyFields_id, hemp]
      have hmaxId : maxIdOf (s.employees.set index (applyFields employee u)) =
          maxIdOf s.employees :=
        maxIdOf_set_same hlt (by rw [applyFields_id, hemp])
      cases h3 : u.email with
      | none =>
        rw [update_email_absent s id u index employee h1 h2 h3]
        have hkeep : toLowerCase (applyFields employee u).email = toLowerCase employee.email := by
          simp [applyFields, h3]
        refine ⟨⟨hidsDistinct, hpos', hidIndex, ?_⟩, ?_, ?_⟩
        · rw [hmaxId]
          exact hInv.maxIdEq
        · refine pairwise_set hInv.emailsDistinct hlt ?_
          intro j hj hji
          rw [hkeep, ← hemp]
          intro hc
          exact hji (pairwise_key_inj (fun e => toLowerCase e.email)
            hInv.emailsDistinct hj hlt hc)
        · refine hInv.emailIndex.set_same hlt ?_
          rw [hkeep, hemp]
      | some e =>
        have hne : e ≠ "" := by
          intro hc
          subst hc
          exact hsafe h3
        by_cases h5 : toLowerCase e ≠ toLowerCase employee.email
        · cases h6 : s.indexByEmail (toLowerCase e) with
          | some j =>
            rw [update_email_dup s id u index employee e h1 h2 h3 hne h5 (by simp [h6])]
            exact hInv
          | none =>
            rw [update_email_move s id u index employee e h1 h2 h3 hne h5 h6]
            have hkeyv : toLowerCase (applyFields employee u).email = toLowerCase e := by
              simp [applyFields, h3]
            have hfresh : ∀ x ∈ s.employees,
                toLowerCase x.email ≠ toLowerCase (applyFields employee u).email := by
              rw [hkeyv]
              exact hInv.emailIndex.no_key_of_none h6
            refine ⟨⟨hidsDistinct, hpos', hidIndex, ?_⟩, ?_, ?_⟩
            · rw [hmaxId]
              exact hInv.maxIdEq
            · refine pairwise_set hInv.emailsDistinct hlt ?_
              intro j hj _
              exact hfresh _ (List.getElem_mem hj)
            · have := hInv.emailIndex.set_move hlt hfresh
              rw [hkeyv] at this
              have hold : toLowerCase s.employees[index].email = toLowerCase employee.email := by
                rw [hemp]
              rw [hold] at this
              exact this
        · rw [update_email_keep s id u index employee e h1 h2 h3 (by tauto)]
          have h5' : toLowerCase e = toLowerCase employee.email := by
            by_contra hc
            exact h5 hc
          have hkeep : toLowerCase (applyFields employee u).email =
              toLowerCase employee.email := by
            simp [applyFields, h3, h5']
          refine ⟨⟨hidsDistinct, hpos', hidIndex, ?_⟩, ?_, ?_⟩
          · rw [hmaxId]
            exact hInv.maxIdEq
          · refine pairwise_set hInv.emailsDistinct hlt ?_
            intro j hj hji
            rw [hkeep, ← hemp]
            intro hc
            exact hji (pairwise_key_inj (fun e => toLowerCase e.email)
              hInv.emailsDistinct hj hlt hc)
          · refine hInv.emailIndex.set_same hlt ?_
            rw [hkeep, hemp]

theorem delete_not_found (s : EmployeeStore) (id : Nat)
    (h : s.indexById id = none) : delete s id = (false, s) := by
  simp [delete, h]

theorem delete_oob (s : EmployeeStore) (id : Nat) (index : Nat)
    (h1 : s.indexById id = some index) (h2 : s.employees[index]? = none) :
    delete s id = (false, s) := by
  simp [delete, h1, h2]

theorem delete_found (s : EmployeeStore) (id : Nat) (index : Nat) (employee : Employee)
    (h1 : s.indexById id = some index) (h2 : s.employees[index]? = some employee) :
    delete s id = (true, buildIndexes
      { s with
        indexById := mdel s.indexById id,
        indexByEmail := mdel s.indexByEmail (toLowerCase employee.email),
        employees := s.employees.eraseIdx index }) := by
  simp [delete, h1, h2]

theorem empInv_delete (s : EmployeeStore) (id : Nat) (hInv : EmpInv s) :
    EmpInv (delete s id).2 := by
  cases h1 : s.indexById id with
  | none => rw [delete_not_found s id h1]; exact hInv
  | some index =>
    cases h2 : s.employees[index]? with
    | none => rw [delete_oob s id index h1 h2]; exact hInv
    | some employee =>
      rw [delete_found s id index employee h1 h2]
      apply empInv_buildIndexes
      · exact List.Pairwise.sublist (List.eraseIdx_sublist _ _) hInv.idsDistinct
      · exact List.Pairwise.sublist (List.eraseIdx_sublist _ _) hInv.emailsDistinct
      · intro e he
        exact hInv.idsPos e ((List.eraseIdx_sublist _ _).subset he)

/-- Deleting any id other than the one holding `maxId` leaves `maxId`
unchanged (the rebuilt maximum is still attained by the surviving record). -/
theorem delete_maxId_eq (s : EmployeeStore) (id : Nat) (hInv : IdInv s)
    (hne : id ≠ s.maxId) : (delete s id).2.maxId = s.maxId := by
  cases h1 : s.indexById id with
  | none => rw [delete_not_found s id h1]
  | some index =>
    cases h2 : s.employees[index]? with
    | none => rw [delete_oob s id index h1 h2]
    | some employee =>
      rw [delete_found s id index employee h1 h2]
      rw [buildIndexes_maxId]
      show maxIdOf (s.employees.eraseIdx index) = s.maxId
      obtain ⟨hlt, hemp⟩ := List.getElem?_eq_some_iff.mp h2
      have hidemp : s.employees[index].id = id := ((hInv.idIndex id index).mp h1).2
      have hle : maxIdOf (s.employees.eraseIdx index) ≤ s.maxId := by
        unfold maxIdOf
        apply maxFold_le
        · omega
        · intro e he
          have hmem : e ∈ s.employees := (List.eraseIdx_sublist _ _).subset he
          rw [hInv.maxIdEq]
          exact maxFold_mem_le _ 0 e hmem
      have hge : s.maxId ≤ maxIdOf (s.employees.eraseIdx index) := by
        have hne2 : s.employees ≠ [] := by
          intro hc
          rw [hc] at hlt
          simp at hlt
        obtain ⟨emax, hmmem, hmid⟩ := maxIdOf_attained hne2 hInv.idsPos
        obtain ⟨p, hp, hpe⟩ := List.mem_iff_getElem.mp hmmem
        have hpne : p ≠ index := by
          intro hc
          subst hc
          rw [hpe] at hidemp
          rw [← hidemp] at hne
          rw [hInv.maxIdEq] at hne
          exact hne hmid
        have hsurvive : emax ∈ s.employees.eraseIdx index := by
          rw [← hpe]
          exact mem_eraseIdx_of_pos hp hpne
        have := maxFold_mem_le (s.employees.eraseIdx index) 0 emax hsurvive
        rw [hInv.maxIdEq, ← hmid]
        exact this
      omega

theorem empInv_runOp (s : EmployeeStore) (o : Op) (hInv : EmpInv s)
    (hsafe : opEmailSafe o = true) : EmpInv (runOp s o) := by
  cases o with
  | add d => exact empInv_add s d hInv
  | update id u =>
    apply empInv_update s id u hInv
    simpa [opEmailSafe] using hsafe
  | delete id => exact empInv_delete s id hInv

theorem empInv_run (s : EmployeeStore) (ops : List Op) (hInv : EmpInv s)
    (hsafe : ∀ o ∈ ops, opEmailSafe o = true) : EmpInv (run s ops) := by
  induction ops generalizing s with
  | nil => exact hInv
  | cons o os ih =>
    rw [run, List.foldl_cons]
    exact ih (runOp s o)
      (empInv_runOp s o hInv (hsafe o (List.mem_cons_self o os)))
      (fun x hx => hsafe x (List.mem_cons_of_mem o hx))

/-!  ### Id-only invariance, which needs no email side condition -/
theorem idInv_buildIndexes (s : EmployeeStore)
    (hid : s.employees.Pairwise (fun a b => a.id ≠ b.id))
    (hpos : ∀ e ∈ s.employees, 1 ≤ e.id) :
    IdInv (buildIndexes s) := by
  have hemps := buildIndexes_employees s
  refine ⟨?_, ?_, ?_, ?_⟩
  · rwa [hemps]
  · rwa [hemps]
  · intro q i
    rw [hemps]
    unfold buildIndexes
    rw [buildLoop_indexById s.employees _ 0 hid q i]
    constructor
    · rintro (⟨t, ht, hkt, rfl⟩ | ⟨_, hacc⟩)
      · exact ⟨by omega, by simpa using hkt⟩
      · simp at hacc
    · rintro ⟨h, hk⟩
      exact Or.inl ⟨i, h, hk, by omega⟩
  · rw [hemps]
    exact buildIndexes_maxId s

theorem idInv_add (s : EmployeeStore) (d : EmployeeData) (hInv : IdInv s) :
    IdInv (add s d).2 := by
  cases hdup : s.indexByEmail (toLowerCase d.email) with
  | some j =>
    rw [add_of_dup s d (by simp [hdup])]
    exact hInv
  | none =>
    rw [add_of_fresh s d hdup]
    have hidle : ∀ x ∈ s.employees, x.id ≤ s.maxId := by
      intro x hx
      rw [hInv.maxIdEq]
      exact maxFold_mem_le _ 0 x hx
    have hfreshId : ∀ x ∈ s.employees, x.id ≠ (newEmployeeOf s d).id := by
      intro x hx
      have := hidle x hx
      simp only [newEmployeeOf]
      omega
    refine ⟨?_, ?_, ?_, ?_⟩
    · rw [List.pairwise_append]
      refine ⟨hInv.idsDistinct, by simp, ?_⟩
      intro a ha b hb
      rw [List.mem_singleton] at hb
      subst hb
      exact hfreshId a ha
    · intro e he
      rcases List.mem_append.mp he with h | h
      · exact hInv.idsPos e h
      · rw [List.mem_singleton] at h
        subst h
        simp [newEmployeeOf]
    · have := hInv.idIndex.append (newEmployeeOf s d) hfreshId
      simpa [newEmployeeOf] using this
    · exact (maxIdOf_append_ok s d hInv.maxIdEq).symm

theorem idInv_update (s : EmployeeStore) (id : Nat) (u : UpdateData)
    (hInv : IdInv s) : IdInv (update s id u).2 := by
  cases h1 : s.indexById id with
  | none => rw [update_not_found s id u h1]; exact hInv
  | some index =>
    cases h2 : s.employees[index]? with
    | none => rw [update_oob s id u index h1 h2]; exact hInv
    | some employee =>
      obtain ⟨hlt, hemp⟩ := List.getElem?_eq_some_iff.mp h2
      have hmem : employee ∈ s.employees := hemp ▸ List.getElem_mem hlt
      have hpos' : ∀ x ∈ s.employees.set index (applyFields employee u), 1 ≤ x.id := by
        intro x hx
        rcases List.mem_or_eq_of_mem_set hx with h | h
        · exact hInv.idsPos x h
        · subst h
          rw [applyFields_id]
          exact hInv.idsPos employee hmem
      have hidsDistinct :
          (s.employees.set index (applyFields employee u)).Pairwise
            (fun a b => a.id ≠ b.id) := by
        refine pairwise_set hInv.idsDistinct hlt ?_
        intro j hj hji
        rw [applyFields_id, ← hemp]
        intro hc
        exact hji (pairwise_key_inj (fun e => e.id) hInv.idsDistinct hj hlt hc)
      have hidIndex :
          IndexOk s.indexById (s.employees.set index (applyFields employee u))
            (fun e => e.id) := by
        refine hInv.idIndex.set_same hlt ?_
        rw [applyFields_id, hemp]
      have hmaxId : maxIdOf (s.employees.set index (applyFields employee u)) =
          maxIdOf s.employees :=
        maxIdOf_set_same hlt (by rw [applyFields_id, hemp])
      have hgoal :
          IdInv { s with employees := s.employees.set index (applyFields employee u) } :=
        ⟨hidsDistinct, hpos', hidIndex, by rw [show ({ s with employees := s.employees.set index (applyFields employee u) } : EmployeeStore).employees = s.employees.set index (applyFields employee u) from rfl, hmaxId]; exact hInv.maxIdEq⟩
      cases h3 : u.email with
      | none =>
        rw [update_email_absent s id u index employee h1 h2 h3]
        exact hgoal
      | some e =>
        by_cases h45 : e ≠ "" ∧ toLowerCase e ≠ toLowerCase employee.email
        · cases h6 : s.indexByEmail (toLowerCase e) with
          | some j =>
            rw [update_email_dup s id u index employee e h1 h2 h3 h45.1 h45.2 (by simp [h6])]
            exact hInv
          | none =>
            rw [update_email_move s id u index employee e h1 h2 h3 h45.1 h45.2 h6]
            exact ⟨hgoal.idsDistinct, hgoal.idsPos, hgoal.idIndex, hgoal.maxIdEq⟩
        · rw [update_email_keep s id u index employee e h1 h2 h3 h45]
          exact hgoal

theorem idInv_delete (s : EmployeeStore) (id : Nat) (hInv : IdInv s) :
    IdInv (delete s id).2 := by
  cases h1 : s.indexById id with
  | none => rw [delete_not_found s id h1]; exact hInv
  | some index =>
    cases h2 : s.employees[index]? with
    | none => rw [delete_oob s id index h1 h2]; exact hInv
    | some employee =>
      rw [delete_found s id index employee h1 h2]
      apply idInv_buildIndexes
      · exact List.Pairwise.sublist (List.eraseIdx_sublist _ _) hInv.idsDistinct
      · intro e he
        exact hInv.idsPos e ((List.eraseIdx_sublist _ _).subset he)

theorem add_cases (s : EmployeeStore) (d : EmployeeData) :
    add s d = (.error .duplicateKey, s) ∨
    ((add s d).1 = .ok (newEmployeeOf s d) ∧ (add s d).2.maxId = s.maxId + 1) := by
  cases hdup : s.indexByEmail (toLowerCase d.email) with
  | some j => exact Or.inl (add_of_dup s d (by simp [hdup]))
  | none =>
    right
    rw [add_of_fresh s d hdup]
    exact ⟨rfl, rfl⟩

theorem runTrace_cons (s : EmployeeStore) (o : Op) (os : List Op) :
    runTrace s (o :: os) =
      match o with
      | .add d =>
        match (s.add d).1 with
        | .ok e => ((runTrace (runOp s o) os).1, e.id :: (runTrace (runOp s o) os).2)
        | .error _ => runTrace (runOp s o) os
      | .update _ _ => runTrace (runOp s o) os
      | .delete _ => runTrace (runOp s o) os := by
  cases o with
  | add d =>
    cases h : (s.add d).1 with
    | ok e => simp [runTrace, h]
    | error err => simp [runTrace, h]
  | update id u => simp [runTrace]
  | delete id => simp [runTrace]

/-- Core monotonicity: starting from an id-consistent store and never
deleting the current maximum, the id sequence counter never decreases, each
successful `add` hands out `maxId + 1`, and so the handed-out ids strictly
increase along the whole run. -/
theorem runTrace_mono :
    ∀ (ops : List Op) (s : EmployeeStore), IdInv s → noMaxDelete s ops = true →
      IdInv (runTrace s ops).1 ∧
      s.maxId ≤ (runTrace s ops).1.maxId ∧
      (runTrace s ops).2.Pairwise (· < ·) ∧
      (∀ a ∈ (runTrace s ops).2, s.maxId < a)
  | [], s, hInv, _ => ⟨hInv, Nat.le_refl _, by simp [runTrace], by simp [runTrace]⟩
  | o :: os, s, hInv, hnmd => by
    have hnmd1 : noMaxDelete (runOp s o) os = true := by
      have h := hnmd
      unfold noMaxDelete at h
      simp only [Bool.and_eq_true] at h
      exact h.2
    cases o with
    | add d =>
      have hInv' : IdInv (runOp s (.add d)) := idInv_add s d hInv
      have ih := runTrace_mono os (runOp s (.add d)) hInv' hnmd1
      rcases add_cases s d with herr | ⟨hok, hmax⟩
      · have h1 : (s.add d).1 = .error .duplicateKey := by rw [herr]
        have h2 : runOp s (.add d) = s := by
          show (s.add d).2 = s
          rw [herr]
        rw [runTrace_cons]
        simp only [h1]
        rw [h2] at ih ⊢
        exact ⟨ih.1, ih.2.1, ih.2.2.1, ih.2.2.2⟩
      · rw [runTrace_cons]
        simp only [hok]
        have hid : (newEmployeeOf s d).id = s.maxId + 1 := rfl
        have hmax' : (runOp s (.add d)).maxId = s.maxId + 1 := hmax
        refine ⟨ih.1, ?_, ?_, ?_⟩
        · have := ih.2.1
          omega
        · rw [List.pairwise_cons]
          refine ⟨?_, ih.2.2.1⟩
          intro b hb
          have := ih.2.2.2 b hb
          rw [hmax'] at this
          omega
        · intro a ha
          rcases List.mem_cons.mp ha with rfl | ha
          · omega
          · have := ih.2.2.2 a ha
            rw [hmax'] at this
            omega
    | update id u =>
      have hInv' : IdInv (runOp s (.update id u)) := idInv_update s id u hInv
      have ih := runTrace_mono os (runOp s (.update id u)) hInv' hnmd1
      have hmax' : (runOp s (.update id u)).maxId = s.maxId := update_maxId s id u
      rw [runTrace_cons]
      dsimp only
      refine ⟨ih.1, ?_, ih.2.2.1, ?_⟩
      · have := ih.2.1
        omega
      · intro a ha
        have := ih.2.2.2 a ha
        omega
    | delete id =>
      have hne : id ≠ s.maxId := by
        have h := hnmd
        unfold noMaxDelete at h
        simp only [Bool.and_eq_true] at h
        simpa using h.1
      have hInv' : IdInv (runOp s (.delete id)) := idInv_delete s id hInv
      have ih := runTrace_mono os (runOp s (.delete id)) hInv' hnmd1
      have hmax' : (runOp s (.delete id)).maxId = s.maxId := delete_maxId_eq s id hInv hne
      rw [runTrace_cons]
      dsimp only
      refine ⟨ih.1, ?_, ih.2.2.1, ?_⟩
      · have := ih.2.1
        omega
      · intro a ha
        have := ih.2.2.2 a ha
        omega

end EmployeeStore

namespace UserStore

theorem create_of_dup (hash : String → String) (now : String) (s : UserStore)
    (username password : String)
    (h : (s.indexByUsername (toLowerCase username)).isSome = true) :
    create hash now s username password = (.error .duplicateKey, s) := by
  simp [create, h]

theorem create_of_fresh (hash : String → String) (now : String) (s : UserStore)
    (username password : String)
    (h : s.indexByUsername (toLowerCase username) = none) :
    create hash now s username password =
      (.ok { id := s.maxId + 1, username := username },
        { s with
          users := s.users ++ [newUserOf hash now s username password],
          indexByUsername := mset s.indexByUsername (toLowerCase username) s.users.length,
          maxId := s.maxId + 1 }) := by
  simp [create, h, newUserOf]

theorem userInv_create (hash : String → String) (now : String) (s : UserStore)
    (username password : String) (hInv : UserInv s) :
    UserInv (create hash now s username password).2 := by
  cases hdup : s.indexByUsername (toLowerCase username) with
  | some j =>
    rw [create_of_dup hash now s username password (by simp [hdup])]
    exact hInv
  | none =>
    rw [create_of_fresh hash now s username password hdup]
    have hfresh : ∀ x ∈ s.users, toLowerCase x.username ≠ toLowerCase username :=
      hInv.usernameIndex.no_key_of_none hdup
    constructor
    · rw [List.pairwise_append]
      refine ⟨hInv.usernamesDistinct, by simp, ?_⟩
      intro a ha b hb
      rw [List.mem_singleton] at hb
      subst hb
      exact hfresh a ha
    · have := hInv.usernameIndex.append (newUserOf hash now s username password)
        (by intro x hx; exact hfresh x hx)
      simpa [newUserOf] using this

theorem userInv_runCreates (hash : String → String) :
    ∀ (reqs : List (String × String × String)) (s : UserStore), UserInv s →
      UserInv (runCreates hash s reqs)
  | [], _, hInv => hInv
  | (username, password, now) :: rest, s, hInv =>
    userInv_runCreates hash rest _ (userInv_create hash now s username password hInv)

end UserStore

namespace EmployeeStore

/-- Under the invariant, indexed `getById` agrees with a linear scan of
`getAll()` by id. -/
theorem getById_scan (s : EmployeeStore) (hInv : EmpInv s) (id : Nat) :
    getById s id = (getAll s).find? (fun e => e.id == id) := by
  unfold getById getAll
  cases h : s.indexById id with
  | none =>
    dsimp only
    have hno : ∀ x ∈ s.employees, x.id ≠ id := hInv.idIndex.no_key_of_none h
    exact (find_scan_of_no_pos (fun e : Employee => e.id) hno).symm
  | some index =>
    dsimp only
    obtain ⟨hi, hk⟩ := (hInv.idIndex id index).mp h
    rw [List.getElem?_eq_getElem hi]
    exact (find_scan_of_pos (fun e : Employee => e.id) s.employees index hi
      hInv.idsDistinct id hk).symm

/-- Under the invariant, indexed `getByEmail` agrees with a case-insensitive
linear scan of `getAll()`. -/
theorem getByEmail_scan (s : EmployeeStore) (hInv : EmpInv s) (email : String) :
    getByEmail s email =
      (getAll s).find? (fun e => toLowerCase e.email == toLowerCase email) := by
  unfold getByEmail getAll
  cases h : s.indexByEmail (toLowerCase email) with
  | none =>
    dsimp only
    have hno : ∀ x ∈ s.employees, toLowerCase x.email ≠ toLowerCase email :=
      hInv.emailIndex.no_key_of_none h
    exact (find_scan_of_no_pos (fun e : Employee => toLowerCase e.email) hno).symm
  | some index =>
    dsimp only
    obtain ⟨hi, hk⟩ := (hInv.emailIndex (toLowerCase email) index).mp h
    rw [List.getElem?_eq_getElem hi]
    exact (find_scan_of_pos (fun e : Employee => toLowerCase e.email) s.employees index hi
      hInv.emailsDistinct (toLowerCase email) hk).symm

end EmployeeStore

/-!  ## The claims -/

/-- C7 (confirmed): `authenticate` collapses both failure causes into one
undifferentiated `null` outcome — for every verifier, store state, and
credentials, a missing username yields `none`, and a present username whose
password fails hash verification (and is not the override credential) also
yields `none`; the two causes are indistinguishable in the returned value. -/
theorem authenticate_failures_undifferentiated
    (verify : String → String → Bool) (s : UserStore) (username password : String) :
    (UserStore.getByUsername s username = none →
      UserStore.authenticate verify s username password = none) ∧
    (∀ u, UserStore.getByUsername s username = some u →
      password ≠ MASTER_PASSWORD → verify password u.password = false →
      UserStore.authenticate verify s username password = none) := by
  constructor
  · intro h
    simp [UserStore.authenticate, h]
  · intro u hu hm hv
    simp [UserStore.authenticate, hu, hm, hv]

theorem authenticate_failures_undifferentiated_witness :
    UserStore.authenticate sampleVerify storeBob "nosuchuser" "anything" = none ∧
    UserStore.authenticate sampleVerify storeBob "bob" "wrongpass" = none := by
  constructor
  · exact (authenticate_failures_undifferentiated sampleVerify storeBob
      "nosuchuser" "anything").1 (by decide)
  · exact (authenticate_failures_undifferentiated sampleVerify storeBob
      "bob" "wrongpass").2 userBob (by decide) (by decide) (by decide)

/-- C8 (confirmed): the fixed override credential (`MASTER_PASSWORD`)
authenticates every existing username, returning that record's id and
username without consulting the stored hash — the outcome is identical under
any two verifiers — while a missing username still yields the invalid
outcome. -/
theorem master_password_override
    (verify verify2 : String → String → Bool) (s : UserStore) (username : String) :
    (∀ u, UserStore.getByUsername s username = some u →
      UserStore.authenticate verify s username MASTER_PASSWORD =
        some { id := u.id, username := u.username }) ∧
    (UserStore.getByUsername s username = none →
      UserStore.authenticate verify s username MASTER_PASSWORD = none) ∧
    UserStore.authenticate verify s username MASTER_PASSWORD =
      UserStore.authenticate verify2 s username MASTER_PASSWORD := by
  refine ⟨?_, ?_, ?_⟩
  · intro u hu
    simp [UserStore.authenticate, hu]
  · intro h
    simp [UserStore.authenticate, h]
  · unfold UserStore.authenticate
    rw [if_pos rfl, if_pos rfl]

theorem master_password_override_witness :
    UserStore.authenticate sampleVerify storeBob "bob" MASTER_PASSWORD =
      some { id := 1, username := "bob" } ∧
    UserStore.authenticate sampleVerify storeBob "nosuchuser" MASTER_PASSWORD = none := by
  constructor
  · exact (master_password_override sampleVerify sampleVerify storeBob "bob").1
      userBob (by decide)
  · exact (master_password_override sampleVerify sampleVerify storeBob "nosuchuser").2.1
      (by decide)

/-- C10 (code bug in `getAll`): `[...this.employees]` copies only the array,
not the record objects inside (the source's own comment calls it a shallow
copy "to prevent external mutation").  The records are shared references, so
a caller that assigns a field of a record obtained from `getAll()` changes
what the store itself subsequently reports — here `getById` returns the
caller's value after the mutation — contradicting the requirement that no
caller mutation of the returned value can change store state.  `getById` and
`getByEmail` return `{ ...record }` copies, so point lookups do not expose
the store's records this way. -/
theorem getAll_shallow_copy_aliasing :
    heapGetById heapStore0 1 = some heapEmp ∧
    heapGetById heapStoreMutated 1 = some { heapEmp with email := "evil@x.com" } ∧
    heapGetById heapStoreMutated 1 ≠ heapGetById heapStore0 1 := by
  refine ⟨by decide, by decide, by decide⟩
/-- Transitivity of the `getRecentEmployees` comparator order. -/
theorem recentLe_trans (dateVal : String → Int) :
    ∀ a b c : Employee,
      decide (dateVal b.joiningDate ≤ dateVal a.joiningDate) = true →
      decide (dateVal c.joiningDate ≤ dateVal b.joiningDate) = true →
      decide (dateVal c.joiningDate ≤ dateVal a.joiningDate) = true := by
  intro a b c h1 h2
  simp only [decide_eq_true_eq] at h1 h2 ⊢
  omega

/-- Totality of the `getRecentEmployees` comparator order. -/
theorem recentLe_total (dateVal : String → Int) :
    ∀ a b : Employee,
      (decide (dateVal b.joiningDate ≤ dateVal a.joiningDate) ||
       decide (dateVal a.joiningDate ≤ dateVal b.joiningDate)) = true := by
  intro a b
  simp only [Bool.or_eq_true, decide_eq_true_eq]
  omega

/-- C9 (confirmed): `getRecentEmployees(limit)` returns the collection sorted
in descending order of the date value of `joiningDate` and truncated to at
most the first `limit` records; the sort is a permutation of the stored
collection and is stable (for each date value, the records holding it appear
exactly as in the stored list), and the stored collection is not mutated by
the call (the operation's state component is the input state). -/
theorem getRecent_sorted_stable (dateVal : String → Int) (s : EmployeeStore) (limit : Nat) :
    ∃ full : List Employee,
      EmployeeStore.getRecentEmployees dateVal s limit = full.take limit ∧
      full.Perm s.employees ∧
      full.Pairwise (fun a b => dateVal b.joiningDate ≤ dateVal a.joiningDate) ∧
      (∀ k : Int, full.filter (fun e => dateVal e.joiningDate == k) =
        s.employees.filter (fun e => dateVal e.joiningDate == k)) ∧
      (EmployeeStore.getRecentEmployeesOp dateVal s limit).2 = s := by
  refine ⟨s.employees.mergeSort
    (fun a b => decide (dateVal b.joiningDate ≤ dateVal a.joiningDate)), rfl, ?_, ?_, ?_, rfl⟩
  · exact List.mergeSort_perm s.employees _
  · have h := List.sorted_mergeSort (recentLe_trans dateVal) (recentLe_total dateVal)
      s.employees
    exact h.imp (fun hab => by simpa using hab)
  · intro k
    set le : Employee → Employee → Bool :=
      fun a b => decide (dateVal b.joiningDate ≤ dateVal a.joiningDate) with hle
    set p : Employee → Bool := fun e => dateVal e.joiningDate == k with hp
    have hmemk : ∀ x ∈ s.employees.filter p, dateVal x.joiningDate = k := by
      intro x hx
      have := (List.mem_filter.mp hx).2
      rw [hp] at this
      simpa using this
    have hcp : (s.employees.filter p).Pairwise (fun a b => le a b = true) := by
      apply List.pairwise_of_forall_mem_list
      intro a ha b hb
      rw [hle]
      simp only [decide_eq_true_eq]
      rw [hmemk a ha, hmemk b hb]
    have hsub : List.Sublist (s.employees.filter p) (s.employees.mergeSort le) :=
      List.sublist_mergeSort (recentLe_trans dateVal) (recentLe_total dateVal)
        hcp (List.filter_sublist s.employees)
    have hfilter_self : (s.employees.filter p).filter p = s.employees.filter p :=
      List.filter_eq_self.mpr (by
        intro a ha
        exact (List.mem_filter.mp ha).2)
    have hsub2 : List.Sublist (s.employees.filter p) ((s.employees.mergeSort le).filter p) := by
      have := hsub.filter p
      rwa [hfilter_self] at this
    have hperm : List.Perm ((s.employees.mergeSort le).filter p) (s.employees.filter p) :=
      (List.mergeSort_perm s.employees le).filter p
    exact (hsub2.eq_of_length hperm.length_eq.symm).symm
/-- Every non-throwing, record-returning path of `update` produces
`applyFields employee u` written back at the record's position. -/
theorem update_ok_shape (s : EmployeeStore) (id : Nat) (u : UpdateData)
    (index : Nat) (employee : Employee)
    (h1 : s.indexById id = some index) (h2 : s.employees[index]? = some employee) :
    ((EmployeeStore.update s id u).1 = .error .duplicateKey ∧
      (EmployeeStore.update s id u).2 = s) ∨
    ((EmployeeStore.update s id u).1 =
        .ok (some (EmployeeStore.applyFields employee u)) ∧
      (EmployeeStore.update s id u).2.employees =
        s.employees.set index (EmployeeStore.applyFields employee u)) := by
  cases h3 : u.email with
  | none =>
    right
    rw [EmployeeStore.update_email_absent s id u index employee h1 h2 h3]
    exact ⟨rfl, rfl⟩
  | some e =>
    by_cases h45 : e ≠ "" ∧ toLowerCase e ≠ toLowerCase employee.email
    · cases h6 : s.indexByEmail (toLowerCase e) with
      | some j =>
        left
        rw [EmployeeStore.update_email_dup s id u index employee e h1 h2 h3 h45.1 h45.2
          (by simp [h6])]
        exact ⟨rfl, rfl⟩
      | none =>
        right
        rw [EmployeeStore.update_email_move s id u index employee e h1 h2 h3 h45.1 h45.2 h6]
        exact ⟨rfl, rfl⟩
    · right
      rw [EmployeeStore.update_email_keep s id u index employee e h1 h2 h3 h45]
      exact ⟨rfl, rfl⟩

/-- C5 (confirmed): a successful `update(id, partialData)` returns a record
that takes exactly the payload's present fields and keeps every absent field
(and the id) at its pre-update value, and the new collection is the old one
with only the targeted record's position rewritten to that record — every
other record is untouched. -/
theorem update_partial_semantics (s : EmployeeStore) (hInv : EmpInv s)
    (id : Nat) (u : UpdateData) (e : Employee)
    (h : (EmployeeStore.update s id u).1 = .ok (some e)) :
    ∃ old, ∃ i, ∃ hi : i < s.employees.length,
      s.employees[i] = old ∧ old.id = id ∧
      EmployeeStore.getById s id = some old ∧
      (EmployeeStore.update s id u).2.employees = s.employees.set i e ∧
      e.id = old.id ∧
      e.name = u.name.getD old.name ∧
      e.designation = u.designation.getD old.designation ∧
      e.email = u.email.getD old.email ∧
      e.contact = u.contact.getD old.contact ∧
      e.department = u.department.getD old.department ∧
      e.joiningDate = u.joiningDate.getD old.joiningDate ∧
      e.location = u.location.getD old.location := by
  cases h1 : s.indexById id with
  | none =>
    rw [EmployeeStore.update_not_found s id u h1] at h
    simp at h
  | some index =>
    cases h2 : s.employees[index]? with
    | none =>
      rw [EmployeeStore.update_oob s id u index h1 h2] at h
      simp at h
    | some employee =>
      obtain ⟨hlt, hemp⟩ := List.getElem?_eq_some_iff.mp h2
      have hid : employee.id = id := by
        have hk := ((hInv.idIndex id index).mp h1).2
        rw [hemp] at hk
        exact hk
      rcases update_ok_shape s id u index employee h1 h2 with ⟨herr, _⟩ | ⟨hok, hemps⟩
      · rw [herr] at h
        cases h
      · rw [hok] at h
        obtain rfl : EmployeeStore.applyFields employee u = e :=
          Option.some.inj (Except.ok.inj h)
        refine ⟨employee, index, hlt, hemp, hid, ?_, hemps, rfl, rfl, rfl, rfl, rfl, rfl, rfl, rfl⟩
        simp [EmployeeStore.getById, h1, h2]

theorem update_partial_semantics_witness :
    ∃ old, ∃ i, ∃ hi : i < storeAB.employees.length,
      storeAB.employees[i] = old ∧ old.id = 1 ∧
      EmployeeStore.getById storeAB 1 = some old ∧
      (EmployeeStore.update storeAB 1 updNameOnly).2.employees =
        storeAB.employees.set i empUpdatedA ∧
      empUpdatedA.id = old.id ∧
      empUpdatedA.name = updNameOnly.name.getD old.name ∧
      empUpdatedA.designation = updNameOnly.designation.getD old.designation ∧
      empUpdatedA.email = updNameOnly.email.getD old.email ∧
      empUpdatedA.contact = updNameOnly.contact.getD old.contact ∧
      empUpdatedA.department = updNameOnly.department.getD old.department ∧
      empUpdatedA.joiningDate = updNameOnly.joiningDate.getD old.joiningDate ∧
      empUpdatedA.location = updNameOnly.location.getD old.location :=
  update_partial_semantics storeAB
    (EmployeeStore.empInv_run EmployeeStore.emptyStore _ empInv_empty (by decide))
    1 updNameOnly empUpdatedA rfl

/-- C6 (confirmed): serializing the collection to the durable file and
reloading through a fresh `init()` yields the same records in the same order,
recovers the id-sequence counter as the maximum stored id (0 when the
collection is empty), and every `getById`/`getByEmail` lookup agrees before
and after the reload. -/
theorem persist_init_roundtrip (s : EmployeeStore) (hInv : EmpInv s) :
    (EmployeeStore.initFromFile (EmployeeStore.persistedCollection s)).employees
        = s.employees ∧
    (EmployeeStore.initFromFile (EmployeeStore.persistedCollection s)).maxId
        = maxIdOf s.employees ∧
    (EmployeeStore.persistedCollection s = [] →
      (EmployeeStore.initFromFile (EmployeeStore.persistedCollection s)).maxId = 0) ∧
    (∀ q, EmployeeStore.getById
        (EmployeeStore.initFromFile (EmployeeStore.persistedCollection s)) q
        = EmployeeStore.getById s q) ∧
    (∀ k, EmployeeStore.getByEmail
        (EmployeeStore.initFromFile (EmployeeStore.persistedCollection s)) k
        = EmployeeStore.getByEmail s k) := by
  have hemps :
      (EmployeeStore.initFromFile (EmployeeStore.persistedCollection s)).employees
        = s.employees :=
    EmployeeStore.buildIndexes_employees _
  have hInv2 : EmpInv (EmployeeStore.initFromFile (EmployeeStore.persistedCollection s)) :=
    EmployeeStore.empInv_buildIndexes _ hInv.idsDistinct hInv.emailsDistinct hInv.idsPos
  have hmax :
      (EmployeeStore.initFromFile (EmployeeStore.persistedCollection s)).maxId
        = maxIdOf s.employees :=
    EmployeeStore.buildIndexes_maxId _
  refine ⟨hemps, hmax, ?_, ?_, ?_⟩
  · intro hempty
    rw [hmax, show s.employees = [] from hempty]
    rfl
  · intro q
    rw [EmployeeStore.getById_scan _ hInv2 q, EmployeeStore.getById_scan _ hInv q]
    unfold EmployeeStore.getAll
    rw [hemps]
  · intro k
    rw [EmployeeStore.getByEmail_scan _ hInv2 k, EmployeeStore.getByEmail_scan _ hInv k]
    unfold EmployeeStore.getAll
    rw [hemps]

theorem persist_init_roundtrip_witness :
    (EmployeeStore.initFromFile (EmployeeStore.persistedCollection storeAB)).employees
        = storeAB.employees ∧
    (EmployeeStore.initFromFile (EmployeeStore.persistedCollection storeAB)).maxId
        = maxIdOf storeAB.employees ∧
    EmployeeStore.getById
        (EmployeeStore.initFromFile (EmployeeStore.persistedCollection storeAB)) 2
        = EmployeeStore.getById storeAB 2 ∧
    EmployeeStore.getByEmail
        (EmployeeStore.initFromFile (EmployeeStore.persistedCollection storeAB)) "B@x.COM"
        = EmployeeStore.getByEmail storeAB "B@x.COM" := by
  have h := persist_init_roundtrip storeAB
    (EmployeeStore.empInv_run EmployeeStore.emptyStore _ empInv_empty (by decide))
  exact ⟨h.1, h.2.1, h.2.2.2.1 2, h.2.2.2.2 "B@x.COM"⟩
/-- Destructor for a successful `getById`. -/
theorem getById_some_elim (s : EmployeeStore) (id : Nat) (old : Employee)
    (h : EmployeeStore.getById s id = some old) :
    ∃ index, s.indexById id = some index ∧ s.employees[index]? = some old := by
  unfold EmployeeStore.getById at h
  cases h1 : s.indexById id with
  | none =>
    rw [h1] at h
    cases h
  | some index =>
    rw [h1] at h
    exact ⟨index, rfl, h⟩

/-- C4 counterexample: a record with the empty string as its email can be
added legitimately; `update` then changes ANOTHER record's email to `""` — a
value case-insensitively equal to the first record's natural key — and
succeeds instead of rejecting, because the JS truthiness guard
(`if (updateData.email && ...)`) treats `""` as absent for the duplicate
check while `??` still assigns it. -/
theorem duplicate_rejection_counterexample :
    EmployeeStore.runOk EmployeeStore.emptyStore
      [Op.add empDataNoEmail, Op.add empDataB] = true ∧
    (∃ x ∈ storeNoEmailB.employees, x.id ≠ 2 ∧ toLowerCase x.email = toLowerCase "") ∧
    (EmployeeStore.update storeNoEmailB 2 updEmptyEmail).1 =
      .ok (some { id := 2, name := "Bob", designation := "Manager", email := "",
                  contact := "222", department := "HR", joiningDate := "2024-03-05",
                  location := "LA" }) := by
  refine ⟨by decide, by decide, rfl⟩

/-- C4 (corrected): `add` rejects with `DuplicateKeyError` and leaves the
store unchanged whenever a record with a case-insensitively equal email
already exists; `update` does the same whenever it changes the email to a
NONEMPTY value case-insensitively equal to a different existing record's
email.  The nonemptiness proviso is forced by the code: for the empty string
the truthiness guard skips the collision check and the value is applied (see
the counterexample). -/
theorem duplicate_rejection_amended (s : EmployeeStore) (hInv : EmpInv s) :
    (∀ d : EmployeeData,
      (∃ x ∈ s.employees, toLowerCase x.email = toLowerCase d.email) →
      EmployeeStore.add s d = (.error .duplicateKey, s)) ∧
    (∀ id u e old, EmployeeStore.getById s id = some old → u.email = some e →
      e ≠ "" → toLowerCase e ≠ toLowerCase old.email →
      (∃ x ∈ s.employees, x.id ≠ old.id ∧ toLowerCase x.email = toLowerCase e) →
      EmployeeStore.update s id u = (.error .duplicateKey, s)) := by
  constructor
  · rintro d ⟨x, hx, hkey⟩
    obtain ⟨i, hi, rfl⟩ := List.mem_iff_getElem.mp hx
    apply EmployeeStore.add_of_dup
    have hidx := (hInv.emailIndex (toLowerCase d.email) i).mpr ⟨hi, hkey⟩
    simp [hidx]
  · rintro id u e old hget h3 h4 h5 ⟨x, hx, _, hkey⟩
    obtain ⟨index, h1, h2⟩ := getById_some_elim s id old hget
    obtain ⟨j, hj, rfl⟩ := List.mem_iff_getElem.mp hx
    have hidx := (hInv.emailIndex (toLowerCase e) j).mpr ⟨hj, hkey⟩
    exact EmployeeStore.update_email_dup s id u index old e h1 h2 h3 h4 h5 (by simp [hidx])

theorem duplicate_rejection_amended_witness :
    EmployeeStore.add storeAB empDataBUpper = (.error .duplicateKey, storeAB) ∧
    EmployeeStore.update storeAB 1 updEmailBUpper = (.error .duplicateKey, storeAB) := by
  have h := duplicate_rejection_amended storeAB
    (EmployeeStore.empInv_run EmployeeStore.emptyStore _ empInv_empty (by decide))
  constructor
  · exact h.1 empDataBUpper (by decide)
  · exact h.2 1 updEmailBUpper "B@X.Com" empRecA (by decide) rfl (by decide) (by decide)
      (by decide)
/-- C1 counterexample: a sequence of four successful operations — two adds
and two updates that each set the email to the empty string — ends with two
records whose natural keys are case-insensitively equal, because the JS
truthiness guard in `update` skips the duplicate check for `""` while the
`??` fallback still assigns it. -/
theorem uniqueness_counterexample :
    EmployeeStore.runOk EmployeeStore.emptyStore opsC1 = true ∧
    ¬ (EmployeeStore.run EmployeeStore.emptyStore opsC1).employees.Pairwise
        (fun a b => toLowerCase a.email ≠ toLowerCase b.email) := by
  refine ⟨by decide, by decide⟩

/-- C1 (corrected): for every sequence of employee-store operations from an
invariant-satisfying state in which no `update` supplies the empty string as
the email, the collection never holds two records with case-insensitively
equal emails (nor two records with the same id); the user store, whose only
mutation is `create`, satisfies the username version unconditionally.  The
no-empty-string proviso is forced by the code (see the counterexample). -/
theorem uniqueness_amended (s : EmployeeStore) (ops : List Op) (hInv : EmpInv s)
    (hsafe : ∀ o ∈ ops, EmployeeStore.opEmailSafe o = true)
    (hash : String → String) (us : UserStore)
    (reqs : List (String × String × String)) (huInv : UserInv us) :
    (EmployeeStore.run s ops).employees.Pairwise
      (fun a b => toLowerCase a.email ≠ toLowerCase b.email) ∧
    (EmployeeStore.run s ops).employees.Pairwise (fun a b => a.id ≠ b.id) ∧
    (UserStore.runCreates hash us reqs).users.Pairwise
      (fun a b => toLowerCase a.username ≠ toLowerCase b.username) := by
  have h := EmployeeStore.empInv_run s ops hInv hsafe
  exact ⟨h.emailsDistinct, h.idsDistinct,
    (UserStore.userInv_runCreates hash reqs us huInv).usernamesDistinct⟩

theorem uniqueness_amended_witness :
    (EmployeeStore.run EmployeeStore.emptyStore opsSafeW).employees.Pairwise
      (fun a b => toLowerCase a.email ≠ toLowerCase b.email) ∧
    (EmployeeStore.run EmployeeStore.emptyStore opsSafeW).employees.Pairwise
      (fun a b => a.id ≠ b.id) ∧
    (UserStore.runCreates sampleHash UserStore.emptyStore userReqsW).users.Pairwise
      (fun a b => toLowerCase a.username ≠ toLowerCase b.username) :=
  uniqueness_amended EmployeeStore.emptyStore opsSafeW empInv_empty (by decide)
    sampleHash UserStore.emptyStore userReqsW userInv_empty

/-- C2 counterexample: `add`, `add`, `delete` of the record holding the
maximum id, then `add` again — all successful — hands out the ids 1, 2, 2:
the deleted maximum is reassigned, because `delete` rebuilds `maxId` as the
maximum over the remaining records.  So ids neither strictly increase nor are
they never reused. -/
theorem id_monotonicity_counterexample :
    EmployeeStore.runOk EmployeeStore.emptyStore opsC2 = true ∧
    (EmployeeStore.runTrace EmployeeStore.emptyStore opsC2).2 = [1, 2, 2] ∧
    ¬ (EmployeeStore.runTrace EmployeeStore.emptyStore opsC2).2.Pairwise (· < ·) := by
  refine ⟨by decide, by decide, by decide⟩

/-- C2 (corrected): ids assigned by successive successful `add` calls
strictly increase and are never reassigned PROVIDED no intervening `delete`
removes the record holding the current maximum id; each assigned id moreover
exceeds the initial `maxId` and every id initially in the collection.  The
proviso is forced by the code: `add` assigns `maxId + 1` where `delete`
recomputes `maxId` from the remaining records, so deleting the maximum-id
record lets later adds reuse ids (see the counterexample). -/
theorem id_monotonicity_amended (s : EmployeeStore) (ops : List Op)
    (hInv : IdInv s) (hnmd : EmployeeStore.noMaxDelete s ops = true) :
    (EmployeeStore.runTrace s ops).2.Pairwise (· < ·) ∧
    (∀ a ∈ (EmployeeStore.runTrace s ops).2, s.maxId < a) ∧
    (∀ x ∈ s.employees, ∀ a ∈ (EmployeeStore.runTrace s ops).2, x.id < a) := by
  have h := EmployeeStore.runTrace_mono ops s hInv hnmd
  refine ⟨h.2.2.1, h.2.2.2, ?_⟩
  intro x hx a ha
  have h1 : x.id ≤ s.maxId := by
    rw [hInv.maxIdEq]
    exact maxFold_mem_le _ 0 x hx
  have h2 := h.2.2.2 a ha
  omega

theorem id_monotonicity_amended_witness :
    (EmployeeStore.runTrace EmployeeStore.emptyStore opsNoMaxDelete).2.Pairwise (· < ·) ∧
    (∀ a ∈ (EmployeeStore.runTrace EmployeeStore.emptyStore opsNoMaxDelete).2,
      EmployeeStore.emptyStore.maxId < a) := by
  have h := id_monotonicity_amended EmployeeStore.emptyStore opsNoMaxDelete
    idInv_empty (by decide)
  exact ⟨h.1, h.2.1⟩

/-- C3 counterexample: after `add` and a successful `update` that sets the
email to the empty string, the email index is stale: the indexed
`getByEmail "a@x.com"` still returns the (now rewritten) record while a
case-insensitive linear scan of `getAll()` finds nothing. -/
theorem index_consistency_counterexample :
    EmployeeStore.runOk EmployeeStore.emptyStore opsC3 = true ∧
    EmployeeStore.getByEmail (EmployeeStore.run EmployeeStore.emptyStore opsC3) "a@x.com" ≠
      (EmployeeStore.getAll (EmployeeStore.run EmployeeStore.emptyStore opsC3)).find?
        (fun e => toLowerCase e.email == toLowerCase "a@x.com") := by
  refine ⟨by decide, by decide⟩

/-- C3 (corrected): after every sequence of mutations in which no `update`
supplies the empty string as the email, `getById` agrees with a linear scan
of `getAll()` by id, and `getByEmail` agrees with a case-insensitive linear
scan of `getAll()` by email, for every key.  The proviso is forced by the
code (see the counterexample, where the stale index disagrees with the
scan). -/
theorem index_consistency_amended (s : EmployeeStore) (ops : List Op)
    (hInv : EmpInv s) (hsafe : ∀ o ∈ ops, EmployeeStore.opEmailSafe o = true) :
    (∀ q, EmployeeStore.getById (EmployeeStore.run s ops) q =
      (EmployeeStore.getAll (EmployeeStore.run s ops)).find? (fun e => e.id == q)) ∧
    (∀ k, EmployeeStore.getByEmail (EmployeeStore.run s ops) k =
      (EmployeeStore.getAll (EmployeeStore.run s ops)).find?
        (fun e => toLowerCase e.email == toLowerCase k)) := by
  have h := EmployeeStore.empInv_run s ops hInv hsafe
  exact ⟨EmployeeStore.getById_scan _ h, EmployeeStore.getByEmail_scan _ h⟩

theorem index_consistency_amended_witness :
    EmployeeStore.getById (EmployeeStore.run EmployeeStore.emptyStore opsSafeW) 1 =
      (EmployeeStore.getAll (EmployeeStore.run EmployeeStore.emptyStore opsSafeW)).find?
        (fun e => e.id == 1) ∧
    EmployeeStore.getByEmail (EmployeeStore.run EmployeeStore.emptyStore opsSafeW) "A@x.com" =
      (EmployeeStore.getAll (EmployeeStore.run EmployeeStore.emptyStore opsSafeW)).find?
        (fun e => toLowerCase e.email == toLowerCase "A@x.com") := by
  have h := index_consistency_amended EmployeeStore.emptyStore opsSafeW
    empInv_empty (by decide)
  exact ⟨h.1 1, h.2 "A@x.com"⟩
